import Mathlib

/-!
Verification development for the spoticraft/spotifreak sync supervisor.

Shallow embedding of the components covered by the specification:
the sync state store (`spoticraft/state.py`), the supervisor's interval
parser, IPC command handler and shared playlist cache
(`spotifreak/supervisor.py`), and the playlist-presentation selection
engine (`spotifreak/modules/playlist_presentation.py`).

Conventions used throughout:
* Python dictionaries with a known field layout become structures;
  free-form dictionaries become association lists with Python's
  insert-or-update semantics.
* `datetime` instants are modelled as integers (seconds); timestamps that
  the code only ever compares or subtracts keep those operations.
* Randomness (`random.Random`) is modelled by an explicit oracle: a
  stream of natural numbers driving `rng.choice`/`randrange` (the pick is
  taken modulo the population size) and a stream of rationals driving
  `rng.random()`.
* Fallible operations return `Option`/`Except`; a Python `IndexError` is
  an `Except.error`.
-/

namespace Spoticraft

/-! ## State store (`spoticraft/state.py`)

`SyncState.begin_run` / `complete_run` / `_trim_run_history` operate on
`data["run_history"]`, a JSON list of run-record dictionaries.  The
record dictionaries produced by the code always carry `id`, `status`
and `started_at`, and optionally `completed_at`, `error` and `details`;
we model them as a structure with `Option` fields for the optional keys
(`none` = key absent).  `run_history` itself is `none` when the key is
absent or not a list (both are replaced by `[]` by
`_ensure_run_history`). -/

/-- `RUN_HISTORY_LIMIT` from `state.py`. -/
def RUN_HISTORY_LIMIT : Nat := 20

/-- One entry of `run_history` (a JSON object in the Python code). -/
structure RunRecord where
  id : String
  status : String
  started_at : String
  completed_at : Option String := none
  error : Option String := none
  details : Option (List (String × String)) := none
deriving Repr, DecidableEq

/-- The slice of `SyncState` that the run-history operations read and
write: the `run_history` entry of `data` (`none` when absent or not a
list) and the `_dirty` flag. -/
structure HState where
  run_history : Option (List RunRecord) := none
  dirty : Bool := false
deriving Repr, DecidableEq

/-- `SyncState._ensure_run_history`: return the history list, installing
`[]` (and setting the dirty flag) when `data["run_history"]` is missing
or not a list. -/
def ensureRunHistory (s : HState) : List RunRecord × HState :=
  match s.run_history with
  | some history => (history, s)
  | none => ([], { run_history := some [], dirty := true })

/-- `SyncState._trim_run_history`: when the history is a list longer than
`RUN_HISTORY_LIMIT`, delete all but the last `RUN_HISTORY_LIMIT` entries
(`del history[:-RUN_HISTORY_LIMIT]`) and mark the state dirty. -/
def trimRunHistory (s : HState) : HState :=
  match s.run_history with
  | some history =>
      if history.length > RUN_HISTORY_LIMIT then
        { run_history := some (history.drop (history.length - RUN_HISTORY_LIMIT)),
          dirty := true }
      else s
  | none => s

/-- `SyncState.begin_run`: append a `running` record (with `started_at`
defaulting to the current time `now`), trim, and set the dirty flag. -/
def beginRun (s : HState) (run_id : String) (started_at : Option String)
    (now : String) : HState :=
  let (history, s1) := ensureRunHistory s
  let rec0 : RunRecord :=
    { id := run_id, status := "running", started_at := started_at.getD now }
  let s2 := { s1 with run_history := some (history ++ [rec0]) }
  let s3 := trimRunHistory s2
  { s3 with dirty := true }

/-- Replace the last element of `l` satisfying `p` (searching from the
right, as the `for candidate in reversed(history)` loop does) by `f`
applied to it; `none` when no element matches. -/
def updateLastMatching (p : RunRecord → Bool) (f : RunRecord → RunRecord) :
    List RunRecord → Option (List RunRecord)
  | [] => none
  | r :: rest =>
      match updateLastMatching p f rest with
      | some rest' => some (r :: rest')
      | none => if p r then some (f r :: rest) else none

/-- `SyncState.complete_run`: find the youngest record with matching id
and overwrite its `status`, `completed_at`, `error` and `details`
(passing `None` removes the latter two keys); when no record matches,
append a synthetic record first.  Then trim and set the dirty flag. -/
def completeRun (s : HState) (run_id status : String)
    (completed_at error : Option String)
    (details : Option (List (String × String))) (now : String) : HState :=
  let (history, s1) := ensureRunHistory s
  let fill : RunRecord → RunRecord := fun r =>
    { r with status := status, completed_at := some (completed_at.getD now),
             error := error, details := details }
  let synthetic : RunRecord :=
    { id := run_id, status := "", started_at := completed_at.getD now }
  let history' :=
    match updateLastMatching (fun r => r.id == run_id) fill history with
    | some h => h
    | none => history ++ [fill synthetic]
  let s2 := trimRunHistory { s1 with run_history := some history' }
  { s2 with dirty := true }

/-- A begin/complete operation on the run history. -/
inductive HOp where
  | begin (run_id : String) (started_at : Option String)
  | complete (run_id status : String) (completed_at error : Option String)
      (details : Option (List (String × String)))
deriving Repr

/-- Apply one operation at time `now`. -/
def hstep (now : String) (s : HState) : HOp → HState
  | .begin rid sa => beginRun s rid sa now
  | .complete rid st ca err det => completeRun s rid st ca err det now

/-- The history length of a state, `0` when the key is absent. -/
def historyLength (s : HState) : Nat :=
  (s.run_history.getD []).length

/-- The scenario of the spec's history-trim test: from `s`, run
`begin_run("r-k")` then `complete_run("r-k", "success")` for
`k = 1 .. n`. -/
def runPairs (s : HState) (n : Nat) : HState :=
  (List.range' 1 n).foldl
    (fun s k =>
      let rid := "r-" ++ toString k
      hstep "t" (hstep "t" s (.begin rid none)) (.complete rid "success" none none none))
    s

theorem historyLength_trim_le (s : HState) :
    historyLength (trimRunHistory s) ≤ RUN_HISTORY_LIMIT := by
  unfold trimRunHistory
  match h : s.run_history with
  | none => simp [historyLength, h]
  | some history =>
      by_cases hl : history.length > RUN_HISTORY_LIMIT
      · simp [historyLength, hl, List.length_drop]
        omega
      · simp only [hl, ite_false, historyLength, h, Option.getD_some]
        omega

theorem historyLength_beginRun_le (s : HState) (rid : String)
    (sa : Option String) (now : String) :
    historyLength (beginRun s rid sa now) ≤ RUN_HISTORY_LIMIT := by
  unfold beginRun
  have := historyLength_trim_le
  simp only [historyLength] at *
  apply this

theorem historyLength_completeRun_le (s : HState) (rid st : String)
    (ca err : Option String) (det : Option (List (String × String)))
    (now : String) :
    historyLength (completeRun s rid st ca err det now) ≤ RUN_HISTORY_LIMIT := by
  unfold completeRun
  have := historyLength_trim_le
  simp only [historyLength] at *
  apply this

set_option maxRecDepth 10000 in
/-- C1: after every `begin_run`/`complete_run` operation, from any state,
the run history holds at most 20 records; and the concrete scenario —
from the empty state, `begin_run("r-k")` followed by
`complete_run("r-k", "success")` for k = 1..25 — leaves exactly the 20
records with ids `r-6` … `r-25`, in order. -/
theorem run_history_cap_and_trim :
    (∀ (now : String) (s : HState) (op : HOp),
        historyLength (hstep now s op) ≤ RUN_HISTORY_LIMIT)
    ∧ ((runPairs {} 25).run_history.getD []).map RunRecord.id
        = (List.range' 6 20).map (fun k => "r-" ++ toString k)
    ∧ historyLength (runPairs {} 25) = 20 := by
  refine ⟨?_, by decide, by decide⟩
  intro now s op
  cases op with
  | begin rid sa => exact historyLength_beginRun_le s rid sa now
  | complete rid st ca err det =>
      exact historyLength_completeRun_le s rid st ca err det now

/-! ## Save / load (`SyncState.save`, `load_state`)

For `save`/`load_state` the `data` dictionary is free-form, so it is
modelled as an association list with unique keys and Python's
insert-or-update assignment.  Disk I/O is modelled as a trace of
filesystem events: `SyncState.save` emits `_ensure_parent` followed by a
plain write of the JSON document to the state path (the event type also
has a rename constructor so that atomic temp-file-then-rename writes are
expressible; the code never performs one). -/

/-- A JSON scalar value (sufficient for the state documents the claims
inspect). -/
inductive JValue where
  | jNull
  | jInt (n : Int)
  | jStr (s : String)
  | jBool (b : Bool)
deriving DecidableEq, Repr

/-- A Python dict with JSON values: an association list whose keys are
unique, in insertion order. -/
abbrev JDict := List (String × JValue)

/-- Python dict assignment `d[k] = v`: update in place when the key
exists, otherwise append. -/
def dictInsert (d : JDict) (k : String) (v : JValue) : JDict :=
  if d.any (fun kv => kv.1 == k) then
    d.map (fun kv => if kv.1 == k then (k, v) else kv)
  else d ++ [(k, v)]

/-- `{**base, **d}`-style merge: assign every entry of `d` into `base`
in order. -/
def dictMergeInto (base : JDict) (d : JDict) : JDict :=
  d.foldl (fun acc kv => dictInsert acc kv.1 kv.2) base

/-- The document `save` writes:
`{"version": 1, "updated_at": <now>, **self.data}`. -/
def savePayload (data : JDict) (now : String) : JDict :=
  dictMergeInto [("version", .jInt 1), ("updated_at", .jStr now)] data

/-- `SyncState` as seen by `save`/`load_state`: path, free-form `data`,
and the `_dirty` flag. -/
structure SState where
  path : String
  data : JDict := []
  dirty : Bool := false
deriving DecidableEq, Repr

/-- A filesystem effect performed by the state store. -/
inductive FsEvent where
  | mkdirParents (filePath : String)
  | writeFile (path : String) (doc : JDict)
  | renameFile (src dst : String)
deriving DecidableEq, Repr

/-- Whether an event is a rename. -/
def FsEvent.isRename : FsEvent → Bool
  | .renameFile _ _ => true
  | _ => false

/-- `SyncState.save`: a no-op when the state is not dirty; otherwise
create the parent directories, write the full payload to the state path
(the code opens `self.path` itself for writing), and clear the dirty
flag. -/
def save (s : SState) (now : String) : SState × List FsEvent :=
  if s.dirty then
    ({ s with dirty := false },
     [.mkdirParents s.path, .writeFile s.path (savePayload s.data now)])
  else (s, [])

/-- `load_state`: when the file exists (`content` holds its parsed JSON
document), keep every key other than `version` and `updated_at` as the
state's data; otherwise a blank state.  The loaded state is clean. -/
def load_state (path : String) (content : Option JDict) : SState :=
  match content with
  | some payload =>
      { path := path,
        data := payload.filter
          (fun kv => !(kv.1 == "version" || kv.1 == "updated_at")) }
  | none => { path := path }

theorem dictMergeInto_append (base d : JDict)
    (hfresh : ∀ kv ∈ d, ∀ kv' ∈ base, kv.1 ≠ kv'.1)
    (hnd : (d.map Prod.fst).Nodup) :
    dictMergeInto base d = base ++ d := by
  induction d generalizing base with
  | nil => simp [dictMergeInto]
  | cons kv rest ih =>
      obtain ⟨k, v⟩ := kv
      have hk : k ∉ rest.map Prod.fst ∧ (rest.map Prod.fst).Nodup := by
        rw [List.map_cons] at hnd
        exact List.nodup_cons.mp hnd
      have hnotin : (base.any (fun kv' => kv'.1 == k)) = false := by
        simp only [List.any_eq_false, beq_iff_eq]
        intro kv' hkv' h1
        exact hfresh (k, v) (by simp) kv' hkv' h1.symm
      have step : dictInsert base k v = base ++ [(k, v)] := by
        simp only [dictInsert, hnotin]
        simp
      have hfresh' : ∀ a ∈ rest, ∀ kv' ∈ base ++ [(k, v)], a.1 ≠ kv'.1 := by
        intro a ha kv' hkv'
        rcases List.mem_append.mp hkv' with h | h
        · exact hfresh a (by simp [ha]) kv' h
        · have hkv : kv' = (k, v) := by simpa using h
          subst hkv
          intro hEq
          have : a.1 ∈ rest.map Prod.fst := List.mem_map_of_mem Prod.fst ha
          rw [hEq] at this
          exact hk.1 this
      have hrec := ih (base ++ [(k, v)]) hfresh' hk.2
      simp only [dictMergeInto] at hrec ⊢
      rw [List.foldl_cons]
      simp only [step]
      rw [hrec, List.append_assoc]
      rfl

theorem savePayload_eq_append (data : JDict) (now : String)
    (hres : ∀ kv ∈ data, kv.1 ≠ "version" ∧ kv.1 ≠ "updated_at")
    (hnd : (data.map Prod.fst).Nodup) :
    savePayload data now
      = [("version", .jInt 1), ("updated_at", .jStr now)] ++ data := by
  unfold savePayload
  apply dictMergeInto_append
  · intro kv hkv kv' hkv'
    have hr := hres kv hkv
    have : kv' = ("version", JValue.jInt 1)
        ∨ kv' = ("updated_at", JValue.jStr now) := by
      simpa using hkv'
    rcases this with h | h
    · rw [h]; exact hr.1
    · rw [h]; exact hr.2
  · exact hnd

theorem load_savePayload (path : String) (data : JDict) (now : String)
    (hres : ∀ kv ∈ data, kv.1 ≠ "version" ∧ kv.1 ≠ "updated_at")
    (hnd : (data.map Prod.fst).Nodup) :
    (load_state path (some (savePayload data now))).data = data := by
  rw [load_state, savePayload_eq_append data now hres hnd]
  simp only [List.filter_append]
  have h1 : ([(("version" : String), JValue.jInt 1),
      ("updated_at", JValue.jStr now)].filter
        (fun kv => !(kv.1 == "version" || kv.1 == "updated_at"))) = [] := rfl
  rw [h1, List.nil_append]
  apply List.filter_eq_self.mpr
  intro kv hkv
  have := hres kv hkv
  simp only [Bool.not_eq_true', Bool.or_eq_false_iff, beq_eq_false_iff_ne]
  exact this

/-- C2 (corrected): the round-trip part of the claim fails when the
state's own data uses the reserved key `version` (or `updated_at`):
saving the dirty state `{path := "p", data := {"version": 5}}` writes
the document `{"version": 5, "updated_at": "t"}` (the data entry
overrides the metadata entry in the `{version, updated_at, **data}`
merge), and loading that document strips the key, so the loaded data is
empty rather than equal to the saved data. -/
theorem save_roundtrip_counterexample :
    (save { path := "p", data := [("version", JValue.jInt 5)],
            dirty := true } "t").2
      = [FsEvent.mkdirParents "p",
         FsEvent.writeFile "p"
           [("version", JValue.jInt 5), ("updated_at", JValue.jStr "t")]]
    ∧ (load_state "p"
        (some [("version", JValue.jInt 5),
               ("updated_at", JValue.jStr "t")])).data
      ≠ [("version", JValue.jInt 5)] := by
  constructor
  · rfl
  · decide

/-- C2 (amended): `save` emits filesystem events iff the state is dirty
(a clean save performs no write and leaves the state unchanged), and for
every state whose data does not itself use the reserved keys `version`
or `updated_at`, loading the document just saved yields exactly the
saved state's visible data, the two metadata keys being stripped on
load. -/
theorem save_dirty_iff_write_and_roundtrip (s : SState) (now : String)
    (hres : ∀ kv ∈ s.data, kv.1 ≠ "version" ∧ kv.1 ≠ "updated_at")
    (hnd : (s.data.map Prod.fst).Nodup) :
    ((save s now).2 ≠ [] ↔ s.dirty = true)
    ∧ (s.dirty = false → save s now = (s, []))
    ∧ (load_state s.path (some (savePayload s.data now))).data = s.data := by
  refine ⟨?_, ?_, load_savePayload s.path s.data now hres hnd⟩
  · cases h : s.dirty <;> simp [save, h]
  · intro h; simp [save, h]

/-- A concrete dirty state used to witness the save/load theorems. -/
def sampleDirtyState : SState :=
  { path := "p", data := [("playlists", JValue.jStr "x")], dirty := true }

theorem save_dirty_iff_write_and_roundtrip_witness :
    (∀ kv ∈ sampleDirtyState.data, kv.1 ≠ "version" ∧ kv.1 ≠ "updated_at")
    ∧ ((sampleDirtyState.data.map Prod.fst).Nodup)
    ∧ (((save sampleDirtyState "t").2 ≠ [] ↔ sampleDirtyState.dirty = true)
        ∧ (sampleDirtyState.dirty = false →
            save sampleDirtyState "t" = (sampleDirtyState, []))
        ∧ (load_state sampleDirtyState.path
             (some (savePayload sampleDirtyState.data "t"))).data
            = sampleDirtyState.data) :=
  ⟨by decide, by decide,
   save_dirty_iff_write_and_roundtrip sampleDirtyState "t"
     (by decide) (by decide)⟩

/-- C3 (corrected): `save` on a dirty state does not write via a
temporary file and a rename; at a concrete dirty state its filesystem
trace is exactly a parent-directory creation followed by a direct write
of the payload to the final path, and it contains no rename event. -/
theorem save_no_rename_counterexample :
    (save { path := "p", data := [("k", JValue.jStr "v")],
            dirty := true } "t").2
      = [FsEvent.mkdirParents "p",
         FsEvent.writeFile "p"
           [("version", JValue.jInt 1), ("updated_at", JValue.jStr "t"),
            ("k", JValue.jStr "v")]]
    ∧ ((save { path := "p", data := [("k", JValue.jStr "v")],
               dirty := true } "t").2.all (fun e => !e.isRename)) = true := by
  constructor
  · rfl
  · decide

/-- C3 (amended): when the state is dirty, `save` creates the parent
directories and writes the full document
`{version: 1, updated_at: now, **data}` directly to the state path —
with no temporary file or rename — and clears the dirty flag. -/
theorem save_dirty_writes_directly (s : SState) (now : String)
    (hd : s.dirty = true)
    (hres : ∀ kv ∈ s.data, kv.1 ≠ "version" ∧ kv.1 ≠ "updated_at")
    (hnd : (s.data.map Prod.fst).Nodup) :
    (save s now).1 = { s with dirty := false }
    ∧ (save s now).2
       = [FsEvent.mkdirParents s.path,
          FsEvent.writeFile s.path
            ([("version", .jInt 1), ("updated_at", .jStr now)] ++ s.data)]
    ∧ (((save s now).2.all fun e => !e.isRename) = true) := by
  rw [show (save s now) = ({ s with dirty := false },
      [.mkdirParents s.path,
       .writeFile s.path (savePayload s.data now)]) by simp [save, hd]]
  rw [savePayload_eq_append s.data now hres hnd]
  refine ⟨rfl, rfl, ?_⟩
  simp [FsEvent.isRename]

theorem save_dirty_writes_directly_witness :
    (sampleDirtyState.dirty = true)
    ∧ (∀ kv ∈ sampleDirtyState.data, kv.1 ≠ "version" ∧ kv.1 ≠ "updated_at")
    ∧ ((sampleDirtyState.data.map Prod.fst).Nodup)
    ∧ ((save sampleDirtyState "t").1 = { sampleDirtyState with dirty := false }
      ∧ (save sampleDirtyState "t").2
        = [FsEvent.mkdirParents sampleDirtyState.path,
           FsEvent.writeFile sampleDirtyState.path
             ([("version", .jInt 1), ("updated_at", .jStr "t")]
               ++ sampleDirtyState.data)]
      ∧ ((save sampleDirtyState "t").2.all (fun e => !e.isRename)) = true) :=
  ⟨by decide, by decide, by decide,
   save_dirty_writes_directly sampleDirtyState "t"
     (by decide) (by decide) (by decide)⟩

end Spoticraft

namespace Spotifreak

/-! ## Interval parsing (`Supervisor._parse_interval`)

The Python code strips the expression, then matches the regular
expression `(\d+)([smhd])` (case-insensitive) left to right, requiring
each match to start exactly where the previous one ended and the last to
end at the end of the string; the total must be positive.  Because a
digit run must be immediately followed by a unit letter, this is
equivalent to the character-by-character tokenizer below (digits are
modelled as ASCII digits). -/

/-- Whitespace removed by Python `str.strip()`. -/
def isPyWs (c : Char) : Bool :=
  c == ' ' || c == '\t' || c == '\n' || c == '\r'
    || c == Char.ofNat 11 || c == Char.ofNat 12

/-- Python `str.strip()`. -/
def pyStrip (s : List Char) : List Char :=
  ((s.dropWhile isPyWs).reverse.dropWhile isPyWs).reverse

/-- Seconds per unit letter; the regex is compiled with `re.IGNORECASE`,
so both cases are accepted (`match.group(2).lower()`). -/
def unitSeconds (c : Char) : Option Nat :=
  if c == 's' || c == 'S' then some 1
  else if c == 'm' || c == 'M' then some 60
  else if c == 'h' || c == 'H' then some 3600
  else if c == 'd' || c == 'D' then some 86400
  else none

/-- Decimal value of a digit run, starting from accumulator `a`. -/
def digitsValFrom (a : Nat) (ds : List Char) : Nat :=
  ds.foldl (fun x c => x * 10 + (c.toNat - 48)) a

/-- `int(...)` of a digit run. -/
def digitsVal (ds : List Char) : Nat := digitsValFrom 0 ds

/-- The tokenizing scan over the stripped expression.  `curNum` holds
the digit run currently being read (`none` when the next character must
begin a new token); `total` accumulates seconds.  Returns `none` exactly
when the string is not a gapless concatenation of `digits·unit`
tokens. -/
def scanInterval : List Char → Option Nat → Nat → Option Nat
  | [], curNum, total =>
      match curNum with
      | none => some total
      | some _ => none
  | c :: cs, curNum, total =>
      if c.isDigit then
        scanInterval cs (some ((curNum.getD 0) * 10 + (c.toNat - 48))) total
      else
        match curNum with
        | none => none
        | some v =>
            match unitSeconds c with
            | none => none
            | some mult => scanInterval cs none (total + v * mult)

/-- `Supervisor._parse_interval`: `none` models the `ValueError` the code
raises for malformed or zero-total expressions. -/
def parse_interval (expression : String) : Option Nat :=
  match scanInterval (pyStrip expression.data) none 0 with
  | some total => if total > 0 then some total else none
  | none => none

/-- One `N{s|m|h|d}` token of the interval grammar: a digit run followed
by a unit letter. -/
structure IntervalToken where
  digits : List Char
  unit : Char
deriving Repr, DecidableEq

/-- A token is grammatical when its digit run is non-empty and all
digits, and its unit letter is one of `s`, `m`, `h`, `d` (either
case). -/
def validToken (t : IntervalToken) : Prop :=
  t.digits ≠ [] ∧ (∀ c ∈ t.digits, c.isDigit) ∧ (unitSeconds t.unit).isSome

/-- The seconds contributed by one token. -/
def tokenSeconds (t : IntervalToken) : Nat :=
  digitsVal t.digits * (unitSeconds t.unit).getD 0

/-- The string denoted by a token list (concatenation, no separators). -/
def renderToks : List IntervalToken → List Char
  | [] => []
  | t :: ts => t.digits ++ t.unit :: renderToks ts

/-- The sum of the component seconds of a token list. -/
def sumSeconds (ts : List IntervalToken) : Nat :=
  (ts.map tokenSeconds).sum

theorem unitSeconds_not_digit {c : Char} {m : Nat}
    (h : unitSeconds c = some m) : c.isDigit = false := by
  by_cases hd : c.isDigit
  · exfalso
    have hne : ∀ u : Char, u.isDigit = false → (c == u) = false := by
      intro u hu
      cases hcu : c == u
      · rfl
      · rw [beq_iff_eq.mp hcu] at hd
        rw [hu] at hd
        exact Bool.noConfusion hd
    unfold unitSeconds at h
    rw [hne 's' (by decide), hne 'S' (by decide), hne 'm' (by decide),
        hne 'M' (by decide), hne 'h' (by decide), hne 'H' (by decide),
        hne 'd' (by decide), hne 'D' (by decide)] at h
    simp at h
  · simpa using hd

theorem scanInterval_digits (ds : List Char) (cs : List Char) (a total : Nat)
    (hds : ∀ c ∈ ds, c.isDigit) :
    scanInterval (ds ++ cs) (some a) total
      = scanInterval cs (some (digitsValFrom a ds)) total := by
  induction ds generalizing a with
  | nil => simp [digitsValFrom]
  | cons d ds ih =>
      have hd : d.isDigit := hds d (by simp)
      rw [List.cons_append, scanInterval]
      simp only [hd, if_true, Option.getD_some]
      rw [ih _ (fun c hc => hds c (by simp [hc]))]
      rfl

theorem scanInterval_token (ds : List Char) (u : Char) (mult : Nat)
    (cs : List Char) (total : Nat) (hne : ds ≠ [])
    (hds : ∀ c ∈ ds, c.isDigit) (hu : unitSeconds u = some mult) :
    scanInterval (ds ++ u :: cs) none total
      = scanInterval cs none (total + digitsVal ds * mult) := by
  match ds, hne with
  | d :: ds', _ =>
    have hd : d.isDigit := hds d (by simp)
    rw [List.cons_append, scanInterval]
    simp only [hd, if_true, Option.getD_none]
    rw [scanInterval_digits ds' (u :: cs) _ total
      (fun c hc => hds c (by simp [hc]))]
    rw [scanInterval]
    have hu' : u.isDigit = false := unitSeconds_not_digit hu
    simp only [hu', Bool.false_eq_true, if_false, hu]
    have : digitsVal (d :: ds') = digitsValFrom (0 * 10 + (d.toNat - 48)) ds' := rfl
    rw [this]

theorem scanInterval_renderToks (ts : List IntervalToken) (total : Nat)
    (hts : ∀ t ∈ ts, validToken t) :
    scanInterval (renderToks ts) none total = some (total + sumSeconds ts) := by
  induction ts generalizing total with
  | nil => simp [renderToks, scanInterval, sumSeconds]
  | cons t ts ih =>
      obtain ⟨hne, hds, hsome⟩ := hts t (by simp)
      obtain ⟨mult, hmult⟩ := Option.isSome_iff_exists.mp hsome
      rw [renderToks, scanInterval_token t.digits t.unit mult _ total hne hds hmult]
      rw [ih _ (fun x hx => hts x (by simp [hx]))]
      have hsum : sumSeconds (t :: ts) = digitsVal t.digits * mult + sumSeconds ts := by
        simp [sumSeconds, tokenSeconds, hmult]
      rw [hsum]
      congr 1
      omega

theorem scanInterval_some_structure :
    ∀ (cs : List Char) (a total n : Nat),
      scanInterval cs (some a) total = some n →
      ∃ ds u mult rest, cs = ds ++ u :: rest ∧ (∀ c ∈ ds, c.isDigit)
        ∧ unitSeconds u = some mult
        ∧ scanInterval rest none (total + digitsValFrom a ds * mult)
            = some n := by
  intro cs
  induction cs with
  | nil =>
      intro a total n h
      exact absurd h (by simp [scanInterval])
  | cons c cs ih =>
      intro a total n h
      rw [scanInterval] at h
      by_cases hc : c.isDigit
      · simp only [hc, if_true, Option.getD_some] at h
        obtain ⟨ds, u, mult, rest, hcs, hds, hu, hrest⟩ := ih _ _ _ h
        refine ⟨c :: ds, u, mult, rest, by simp [hcs], ?_, hu, ?_⟩
        · intro x hx
          rcases List.mem_cons.mp hx with hx | hx
          · rw [hx]; exact hc
          · exact hds x hx
        · have : digitsValFrom a (c :: ds)
              = digitsValFrom (a * 10 + (c.toNat - 48)) ds := rfl
          rw [this]
          exact hrest
      · simp only [hc, Bool.false_eq_true, if_false] at h
        cases hu : unitSeconds c with
        | none => rw [hu] at h; exact absurd h (by simp)
        | some mult =>
            rw [hu] at h
            exact ⟨[], c, mult, cs, rfl, by simp, hu,
              by simpa [digitsValFrom] using h⟩

theorem scanInterval_none_sound (N : Nat) :
    ∀ (cs : List Char), cs.length ≤ N → ∀ (total n : Nat),
      scanInterval cs none total = some n →
      ∃ ts, (∀ t ∈ ts, validToken t) ∧ renderToks ts = cs
        ∧ total + sumSeconds ts = n := by
  induction N with
  | zero =>
      intro cs hlen total n h
      have : cs = [] := List.length_eq_zero.mp (Nat.le_zero.mp hlen)
      subst this
      refine ⟨[], by simp, rfl, ?_⟩
      have htn : total = n := by simpa [scanInterval] using h
      simp [sumSeconds, htn]
  | succ N ih =>
      intro cs hlen total n h
      match cs with
      | [] =>
          refine ⟨[], by simp, rfl, ?_⟩
          have htn : total = n := by simpa [scanInterval] using h
          simp [sumSeconds, htn]
      | c :: cs' =>
          rw [scanInterval] at h
          by_cases hc : c.isDigit
          · simp only [hc, if_true, Option.getD_none] at h
            obtain ⟨ds, u, mult, rest, hcs', hds, hu, hrest⟩ :=
              scanInterval_some_structure cs' _ _ _ h
            have hrestlen : rest.length ≤ N := by
              subst hcs'
              simp only [List.length_cons, List.length_append,
                List.length_cons] at hlen
              omega
            obtain ⟨ts, hts, hrender, hsum⟩ := ih rest hrestlen _ _ hrest
            refine ⟨⟨c :: ds, u⟩ :: ts, ?_, ?_, ?_⟩
            · intro x hx
              rcases List.mem_cons.mp hx with hx | hx
              · rw [hx]
                refine ⟨by simp, ?_, by simp [hu]⟩
                intro y hy
                rcases List.mem_cons.mp hy with hy | hy
                · rw [hy]; exact hc
                · exact hds y hy
              · exact hts x hx
            · rw [renderToks, hrender, hcs']
              simp
            · have heq : digitsVal (c :: ds)
                  = digitsValFrom (0 * 10 + (c.toNat - 48)) ds := rfl
              have hsum2 : sumSeconds (⟨c :: ds, u⟩ :: ts)
                  = digitsVal (c :: ds) * mult + sumSeconds ts := by
                simp [sumSeconds, tokenSeconds, hu]
              rw [hsum2, heq]
              omega
          · simp only [hc, Bool.false_eq_true, if_false] at h
            exact absurd h (by simp)

/-- The characterization of `_parse_interval`: success exactly on
non-empty gapless concatenations of `N{s|m|h|d}` tokens with positive
total, and then the result is the sum of the component seconds. -/
theorem parse_interval_iff (e : String) (n : Nat) :
    parse_interval e = some n ↔
      ∃ ts : List IntervalToken, ts ≠ [] ∧ (∀ t ∈ ts, validToken t)
        ∧ renderToks ts = pyStrip e.data ∧ sumSeconds ts = n ∧ 0 < n := by
  constructor
  · intro h
    unfold parse_interval at h
    cases hscan : scanInterval (pyStrip e.data) none 0 with
    | none => rw [hscan] at h; exact absurd h (by simp)
    | some total =>
        rw [hscan] at h
        by_cases hpos : total > 0
        · simp only [hpos, if_true, Option.some.injEq] at h
          subst h
          obtain ⟨ts, hts, hrender, hsum⟩ :=
            scanInterval_none_sound (pyStrip e.data).length
              (pyStrip e.data) (le_refl _) 0 total hscan
          have hsum' : sumSeconds ts = total := by omega
          refine ⟨ts, ?_, hts, hrender, hsum', hpos⟩
          intro hnil
          rw [hnil] at hsum'
          simp [sumSeconds] at hsum'
          omega
        · simp [hpos] at h
  · rintro ⟨ts, hne, hts, hrender, hsum, hpos⟩
    unfold parse_interval
    rw [← hrender, scanInterval_renderToks ts 0 hts]
    simp only [Nat.zero_add, hsum]
    simp [hpos]

/-- C4: the supervisor's interval parser returns the sum of the component
seconds exactly for expressions that (after stripping) are non-empty
gapless concatenations of `N{s|m|h|d}` tokens with positive total, and
fails on every other expression; in particular `"1h30m"` parses to 5400,
`"45s"` to 45, and `""`, `"2x"`, `"1h1x"` all fail. -/
theorem parse_interval_correct :
    (∀ (e : String) (n : Nat),
        parse_interval e = some n ↔
          ∃ ts : List IntervalToken, ts ≠ [] ∧ (∀ t ∈ ts, validToken t)
            ∧ renderToks ts = pyStrip e.data ∧ sumSeconds ts = n ∧ 0 < n)
    ∧ parse_interval "1h30m" = some 5400
    ∧ parse_interval "45s" = some 45
    ∧ parse_interval "" = none
    ∧ parse_interval "2x" = none
    ∧ parse_interval "1h1x" = none :=
  ⟨parse_interval_iff, by decide, by decide, by decide, by decide, by decide⟩

/-! ## Phase selection (`PlaylistPresentationModule._phase_from_schedule`)

The Python function receives a dict `name → datetime` and the current
`datetime`; it sorts the entries by start time and walks the circular
windows `[start_i, start_{i+1})`, wrapping 24 hours.  Instants are
modelled as integer seconds (`(x - y).total_seconds()` is integer
subtraction); the schedule dict is a list of `(name, start)` pairs in
insertion order. -/

/-- `day_seconds = 86400`. -/
def daySeconds : Int := 86400

/-- The loop-body test `0 <= delta < interval`, with `interval` and
`delta` adjusted by 24 hours exactly as in the code. -/
def phaseWindowHit (start next now : Int) : Bool :=
  decide (0 ≤ (if now - start < 0 then now - start + daySeconds
               else now - start))
  && decide ((if now - start < 0 then now - start + daySeconds
              else now - start)
      < (if next - start ≤ 0 then next - start + daySeconds
         else next - start))

/-- Pair each schedule entry with the start of the next entry in sorted
order; the last entry is paired with `first`
(`sorted_items[(idx + 1) % len(sorted_items)]`). -/
def ringPairs (first : Int) : List (String × Int) → List ((String × Int) × Int)
  | [] => []
  | [p] => [(p, first)]
  | p :: q :: rest => (p, q.2) :: ringPairs first (q :: rest)

/-- `PlaylistPresentationModule._phase_from_schedule`. -/
def phase_from_schedule (schedule : List (String × Int)) (now : Int)
    (dflt : String) : String :=
  match schedule with
  | [] => dflt
  | _ :: _ =>
      let sorted := List.insertionSort (fun a b => a.2 ≤ b.2) schedule
      let first := (sorted.headD ("", 0)).2
      match (ringPairs first sorted).find?
          (fun pr => phaseWindowHit pr.1.2 pr.2 now) with
      | some pr => pr.1.1
      | none => (sorted.getLastD ("", 0)).1

/-- Specification-side description of the scan result on a sorted list:
the last entry whose start is ≤ `now`, or — when `now` is before every
start — the last entry overall (whose window wraps midnight). -/
def chooseSorted (L : List (String × Int)) (now : Int) :
    Option (String × Int) :=
  match (L.filter (fun p => decide (p.2 ≤ now))).getLast? with
  | some p => some p
  | none => L.getLast?

/-- The phase of `now` in a schedule: the entry is a member, and either
its window `[start, next start)` contains `now`, or `now` lies in the
wrapped window of the latest entry. -/
def isPhaseOf (schedule : List (String × Int)) (now : Int)
    (p : String × Int) : Prop :=
  p ∈ schedule ∧
    ((p.2 ≤ now ∧ ∀ q ∈ schedule, q.2 ≤ p.2 ∨ now < q.2)
     ∨ (now < p.2 ∧ ∀ q ∈ schedule, q.2 ≤ p.2 ∧ now < q.2))

theorem phaseWindowHit_nonlast {start next now : Int}
    (h1 : 0 ≤ start) (h2 : next < daySeconds) (h3 : start < next)
    (h5 : 0 ≤ now) (h6 : now < daySeconds) :
    phaseWindowHit start next now = true ↔ (start ≤ now ∧ now < next) := by
  unfold phaseWindowHit daySeconds at *
  split_ifs <;> simp <;> omega

theorem phaseWindowHit_wrap {start first now : Int}
    (h1 : 0 ≤ first) (h2 : start < daySeconds) (h3 : first ≤ start)
    (h5 : 0 ≤ now) (h6 : now < daySeconds) :
    phaseWindowHit start first now = true ↔ (start ≤ now ∨ now < first) := by
  unfold phaseWindowHit daySeconds at *
  split_ifs <;> simp <;> omega

theorem getLast?_pairwise_spec {α : Type} {r : α → α → Prop} :
    ∀ (l : List α), l.Pairwise r → ∀ p, l.getLast? = some p →
      p ∈ l ∧ ∀ q ∈ l, q = p ∨ r q p := by
  intro l
  induction l with
  | nil => intro _ p h; exact absurd h (by simp)
  | cons a t ih =>
      intro hpw p hlast
      match t with
      | [] =>
          have : a = p := by simpa using hlast
          subst this
          exact ⟨by simp, by intro q hq; left; simpa using hq⟩
      | b :: t' =>
          rw [List.getLast?_cons_cons] at hlast
          have hpw' := (List.pairwise_cons.mp hpw).2
          have hra := (List.pairwise_cons.mp hpw).1
          obtain ⟨hmem, hall⟩ := ih hpw' p hlast
          refine ⟨by simp [hmem], ?_⟩
          intro q hq
          rcases List.mem_cons.mp hq with hq | hq
          · subst hq
            right
            exact hra p hmem
          · exact hall q hq

theorem ringScan_eq_chooseSorted (now : Int) :
    ∀ (L : List (String × Int)) (first : Int),
      L ≠ [] →
      L.Pairwise (fun a b => a.2 < b.2) →
      (∀ p ∈ L, 0 ≤ p.2 ∧ p.2 < daySeconds) →
      0 ≤ first → first < daySeconds →
      0 ≤ now → now < daySeconds →
      first ≤ (L.headD ("", 0)).2 →
      (now < first ∨ (L.headD ("", 0)).2 ≤ now) →
      ((ringPairs first L).find?
          (fun pr => phaseWindowHit pr.1.2 pr.2 now)).map (fun pr => pr.1)
        = chooseSorted L now := by
  intro L
  induction L with
  | nil => intro first h; exact absurd rfl h
  | cons p rest ih =>
      intro first _ hsorted hrange hf0 hfD hn0 hnD hfle hH
      have hpr := hrange p (by simp)
      match rest with
      | [] =>
          have hhit : phaseWindowHit p.2 first now = true := by
            rw [phaseWindowHit_wrap hf0 hpr.2 (by simpa using hfle) hn0 hnD]
            simp only [List.headD_cons] at hH
            omega
          simp only [ringPairs, List.find?_cons, hhit]
          by_cases hpn : p.2 ≤ now
          · simp [chooseSorted, List.filter, decide_eq_true_eq, hpn]
          · have : (decide (p.2 ≤ now)) = false := by simpa using hpn
            simp [chooseSorted, List.filter, this]
      | q :: rest' =>
          have hq := hrange q (by simp)
          have hpq : p.2 < q.2 := (List.pairwise_cons.mp hsorted).1 q (by simp)
          have hhit : phaseWindowHit p.2 q.2 now = true
              ↔ (p.2 ≤ now ∧ now < q.2) :=
            phaseWindowHit_nonlast hpr.1 hq.2 hpq hn0 hnD
          simp only [List.headD_cons] at hH hfle
          by_cases hcase : p.2 ≤ now ∧ now < q.2
          · have hhit' : phaseWindowHit p.2 q.2 now = true := hhit.mpr hcase
            simp only [ringPairs, List.find?_cons, hhit']
            -- every later entry starts after now, so the filter keeps only p
            have htail : ∀ x ∈ q :: rest', ¬ (decide (x.2 ≤ now) = true) := by
              intro x hx
              rcases List.mem_cons.mp hx with hx | hx
              · subst hx; simp; omega
              · have : q.2 < x.2 :=
                  (List.pairwise_cons.mp ((List.pairwise_cons.mp hsorted).2)).1
                    x hx
                simp
                omega
            have hfilter : (q :: rest').filter (fun x => decide (x.2 ≤ now))
                = [] := List.filter_eq_nil_iff.mpr htail
            have hpkeep : (decide (p.2 ≤ now)) = true := by
              simp [hcase.1]
            simp [chooseSorted, List.filter_cons, hpkeep, hfilter]
          · have hhit' : phaseWindowHit p.2 q.2 now = false := by
              cases h : phaseWindowHit p.2 q.2 now
              · rfl
              · exact absurd (hhit.mp h) hcase
            simp only [ringPairs, List.find?_cons, hhit']
            have hsorted' := (List.pairwise_cons.mp hsorted).2
            have hH' : now < first ∨ ((q :: rest').headD ("", 0)).2 ≤ now := by
              simp only [List.headD_cons]
              rcases hH with h | h
              · left; exact h
              · right; omega
            have hrec := ih first (by simp) hsorted'
              (fun x hx => hrange x (by simp [hx])) hf0 hfD hn0 hnD
              (by simp only [List.headD_cons]; omega) hH'
            rw [hrec]
            -- chooseSorted drops or keeps the head consistently
            by_cases hpn : p.2 ≤ now
            · -- then q.2 ≤ now as well, so the tail filter is non-empty
              have hqn : q.2 ≤ now := by omega
              have hqkeep : (decide (q.2 ≤ now)) = true := by simp [hqn]
              have hpkeep : (decide (p.2 ≤ now)) = true := by simp [hpn]
              simp only [chooseSorted, List.filter_cons, hpkeep, hqkeep,
                if_true, List.getLast?_cons_cons]
            · have hpdrop : (decide (p.2 ≤ now)) = false := by simpa using hpn
              by_cases hqn : q.2 ≤ now
              · have hqkeep : (decide (q.2 ≤ now)) = true := by simp [hqn]
                simp only [chooseSorted, List.filter_cons, hpdrop, hqkeep,
                  Bool.false_eq_true, if_false, if_true]
                cases hlast : (q :: rest'.filter
                    (fun x => decide (x.2 ≤ now))).getLast? with
                | some x => simp [hlast]
                | none => simp at hlast
              · have hqdrop : (decide (q.2 ≤ now)) = false := by simpa using hqn
                simp only [chooseSorted, List.filter_cons, hpdrop, hqdrop,
                  Bool.false_eq_true, if_false]
                cases hrest : (rest'.filter (fun x => decide (x.2 ≤ now))).getLast? with
                | some x => simp [hrest]
                | none => simp [hrest, List.getLast?_cons_cons]

theorem chooseSorted_spec {L : List (String × Int)} {now : Int}
    {p : String × Int}
    (hsorted : L.Pairwise (fun a b => a.2 < b.2))
    (hchoose : chooseSorted L now = some p) :
    p ∈ L ∧ ((p.2 ≤ now ∧ ∀ q ∈ L, q.2 ≤ p.2 ∨ now < q.2)
      ∨ (now < p.2 ∧ ∀ q ∈ L, q.2 ≤ p.2 ∧ now < q.2)) := by
  unfold chooseSorted at hchoose
  cases hlast : (L.filter (fun x => decide (x.2 ≤ now))).getLast? with
  | some x =>
      rw [hlast] at hchoose
      have hx : x = p := by simpa using hchoose
      subst hx
      have hsf : (L.filter (fun x => decide (x.2 ≤ now))).Pairwise
          (fun a b => a.2 < b.2) :=
        List.Pairwise.sublist (List.filter_sublist L) hsorted
      obtain ⟨hmemf, hallf⟩ := getLast?_pairwise_spec _ hsf x hlast
      have hmem : x ∈ L := (List.mem_filter.mp hmemf).1
      have hxle : x.2 ≤ now := by
        have := (List.mem_filter.mp hmemf).2
        simpa using this
      refine ⟨hmem, Or.inl ⟨hxle, ?_⟩⟩
      intro q hq
      by_cases hqn : q.2 ≤ now
      · left
        have hqf : q ∈ L.filter (fun x => decide (x.2 ≤ now)) :=
          List.mem_filter.mpr ⟨hq, by simpa using hqn⟩
        rcases hallf q hqf with h | h
        · rw [h]
        · omega
      · right; omega
  | none =>
      rw [hlast] at hchoose
      have hfe : L.filter (fun x => decide (x.2 ≤ now)) = [] := by
        cases hL : L.filter (fun x => decide (x.2 ≤ now)) with
        | nil => rfl
        | cons a t => rw [hL] at hlast; simp at hlast
      have hnone : ∀ q ∈ L, now < q.2 := by
        intro q hq
        by_contra hqn
        have hqle : q.2 ≤ now := by omega
        have : q ∈ L.filter (fun x => decide (x.2 ≤ now)) :=
          List.mem_filter.mpr ⟨hq, by simpa using hqle⟩
        rw [hfe] at this
        simp at this
      obtain ⟨hmem, hall⟩ := getLast?_pairwise_spec L hsorted p hchoose
      refine ⟨hmem, Or.inr ⟨hnone p hmem, ?_⟩⟩
      intro q hq
      refine ⟨?_, hnone q hq⟩
      rcases hall q hq with h | h
      · rw [h]
      · omega

theorem isPhaseOf_unique {schedule : List (String × Int)} {now : Int}
    {p p' : String × Int}
    (hdist : schedule.Pairwise (fun a b => a.2 ≠ b.2))
    (hp : isPhaseOf schedule now p) (hp' : isPhaseOf schedule now p') :
    p = p' := by
  have hkey : p.2 = p'.2 → p = p' := by
    intro hEq
    by_contra hne
    exact (hdist.forall (fun {a b} h => h.symm) hp.1 hp'.1 hne) hEq
  obtain ⟨hm, hc⟩ := hp
  obtain ⟨hm', hc'⟩ := hp'
  rcases hc with ⟨hle, hall⟩ | ⟨hgt, hall⟩ <;>
    rcases hc' with ⟨hle', hall'⟩ | ⟨hgt', hall'⟩
  · rcases hall p' hm' with h | h
    · rcases hall' p hm with h2 | h2
      · exact hkey (by omega)
      · omega
    · omega
  · have := (hall' p hm).2
    omega
  · have := (hall p' hm').2
    omega
  · have h1 := (hall p' hm').1
    have h2 := (hall' p hm).1
    exact hkey (by omega)

theorem phase_from_schedule_ne_nil (schedule : List (String × Int))
    (now : Int) (dflt : String) (hne : schedule ≠ []) :
    phase_from_schedule schedule now dflt =
      (match (ringPairs
            (((List.insertionSort (fun a b => a.2 ≤ b.2)
                schedule).headD ("", 0)).2)
            (List.insertionSort (fun a b => a.2 ≤ b.2) schedule)).find?
          (fun pr => phaseWindowHit pr.1.2 pr.2 now) with
       | some pr => pr.1.1
       | none => ((List.insertionSort (fun a b => a.2 ≤ b.2)
            schedule).getLastD ("", 0)).1) := by
  match schedule, hne with
  | s :: t, _ => rfl

theorem phase_from_schedule_finds_phase (schedule : List (String × Int))
    (now : Int) (dflt : String)
    (hne : schedule ≠ [])
    (hdist : schedule.Pairwise (fun a b => a.2 ≠ b.2))
    (hrange : ∀ p ∈ schedule, 0 ≤ p.2 ∧ p.2 < daySeconds)
    (hn0 : 0 ≤ now) (hnD : now < daySeconds) :
    ∃ p : String × Int, isPhaseOf schedule now p
      ∧ phase_from_schedule schedule now dflt = p.1 := by
  haveI : IsTotal (String × Int) (fun a b => a.2 ≤ b.2) :=
    ⟨fun a b => Int.le_total a.2 b.2⟩
  haveI : IsTrans (String × Int) (fun a b => a.2 ≤ b.2) :=
    ⟨fun _ _ _ h1 h2 => le_trans h1 h2⟩
  have hperm : (List.insertionSort (fun a b => a.2 ≤ b.2) schedule).Perm
      schedule := List.perm_insertionSort _ schedule
  set L := List.insertionSort (fun a b => a.2 ≤ b.2) schedule with hL
  have hsortedLe : L.Pairwise (fun a b => a.2 ≤ b.2) :=
    List.sorted_insertionSort (fun (a b : String × Int) => a.2 ≤ b.2) schedule
  have hdistL : L.Pairwise (fun a b => a.2 ≠ b.2) :=
    (hperm.pairwise_iff (fun {x y} h => h.symm)).mpr hdist
  have hstrict : L.Pairwise (fun a b => a.2 < b.2) := by
    have := hsortedLe.and hdistL
    refine this.imp ?_
    intro a b hab
    have h1 := hab.1
    have h2 := hab.2
    omega
  have hrangeL : ∀ p ∈ L, 0 ≤ p.2 ∧ p.2 < daySeconds := by
    intro x hx
    exact hrange x (hperm.mem_iff.mp hx)
  have hLne : L ≠ [] := by
    intro h
    rw [h] at hperm
    exact hne (List.Perm.nil_eq hperm).symm
  match hLeq : L, hLne with
  | h0 :: t, _ =>
      have hh0 := hrangeL h0 (by rw [hLeq]; simp)
      have hscan := ringScan_eq_chooseSorted now (h0 :: t) h0.2
        (by simp) (hLeq ▸ hstrict) (hLeq ▸ hrangeL) hh0.1 hh0.2 hn0 hnD
        (by simp) (by simp; omega)
      -- the chooser yields an entry of the sorted list
      have hchoose : ∃ p, chooseSorted (h0 :: t) now = some p := by
        unfold chooseSorted
        cases hlast : ((h0 :: t).filter
            (fun x => decide (x.2 ≤ now))).getLast? with
        | some x => exact ⟨x, rfl⟩
        | none =>
            cases hl2 : (h0 :: t).getLast? with
            | some x => exact ⟨x, rfl⟩
            | none => simp at hl2
      obtain ⟨p, hp⟩ := hchoose
      obtain ⟨hmemL, hcond⟩ := chooseSorted_spec (hLeq ▸ hstrict) hp
      refine ⟨p, ?_, ?_⟩
      · refine ⟨hperm.mem_iff.mp (hLeq ▸ hmemL), ?_⟩
        rcases hcond with ⟨h1, h2⟩ | ⟨h1, h2⟩
        · exact Or.inl ⟨h1, fun q hq =>
            h2 q (hLeq ▸ (hperm.mem_iff.mpr hq))⟩
        · exact Or.inr ⟨h1, fun q hq =>
            h2 q (hLeq ▸ (hperm.mem_iff.mpr hq))⟩
      · -- evaluate the function: nonempty schedule takes the sorted branch
        rw [phase_from_schedule_ne_nil schedule now dflt hne, ← hL, hLeq]
        simp only [List.headD_cons]
        cases hfind : (ringPairs h0.2 (h0 :: t)).find?
            (fun pr => phaseWindowHit pr.1.2 pr.2 now) with
        | some pr =>
            rw [hfind] at hscan
            rw [hp] at hscan
            have : pr.1 = p := by simpa using hscan
            simp [this]
        | none =>
            rw [hfind] at hscan
            rw [hp] at hscan
            simp at hscan

/-- The example schedule of the spec: morning 06:00, day 09:00,
evening 18:00, night 22:00 (as seconds of day). -/
def exampleSchedule : List (String × Int) :=
  [("morning", 21600), ("day", 32400), ("evening", 64800), ("night", 79200)]

/-- C5: for a non-empty schedule with distinct start times within the
day, every instant of the 24-hour day lies in exactly one phase window
(the last window wrapping around midnight), and `_phase_from_schedule`
returns that phase; an empty schedule yields the default `"default"`;
and for the example schedule, 07:15 → morning, 23:30 → night,
05:30 → night. -/
theorem phase_selection_correct (schedule : List (String × Int)) (now : Int)
    (dflt : String)
    (hne : schedule ≠ [])
    (hdist : schedule.Pairwise (fun a b => a.2 ≠ b.2))
    (hrange : ∀ p ∈ schedule, 0 ≤ p.2 ∧ p.2 < daySeconds)
    (hn0 : 0 ≤ now) (hnD : now < daySeconds) :
    (∃! p : String × Int, isPhaseOf schedule now p)
    ∧ (∀ p, isPhaseOf schedule now p →
        phase_from_schedule schedule now dflt = p.1)
    ∧ (∀ (n : Int) (d : String), phase_from_schedule [] n d = d)
    ∧ phase_from_schedule exampleSchedule 26100 "default" = "morning"
    ∧ phase_from_schedule exampleSchedule 84600 "default" = "night"
    ∧ phase_from_schedule exampleSchedule 19800 "default" = "night" := by
  obtain ⟨p, hp, hres⟩ := phase_from_schedule_finds_phase schedule now dflt
    hne hdist hrange hn0 hnD
  refine ⟨⟨p, hp, fun q hq => isPhaseOf_unique hdist hq hp⟩, ?_,
    fun n d => rfl, by decide, by decide, by decide⟩
  intro q hq
  rw [isPhaseOf_unique hdist hq hp]
  exact hres

theorem phase_selection_correct_witness :
    (exampleSchedule ≠ []
      ∧ exampleSchedule.Pairwise (fun a b => a.2 ≠ b.2)
      ∧ (∀ p ∈ exampleSchedule, 0 ≤ p.2 ∧ p.2 < daySeconds)
      ∧ (0 : Int) ≤ 26100 ∧ (26100 : Int) < daySeconds)
    ∧ ((∃! p : String × Int, isPhaseOf exampleSchedule 26100 p)
      ∧ (∀ p, isPhaseOf exampleSchedule 26100 p →
          phase_from_schedule exampleSchedule 26100 "default" = p.1)
      ∧ (∀ (n : Int) (d : String), phase_from_schedule [] n d = d)
      ∧ phase_from_schedule exampleSchedule 26100 "default" = "morning"
      ∧ phase_from_schedule exampleSchedule 84600 "default" = "night"
      ∧ phase_from_schedule exampleSchedule 19800 "default" = "night") :=
  ⟨⟨by decide, by decide, by decide, by decide, by decide⟩,
   phase_selection_correct exampleSchedule 26100 "default"
     (by decide) (by decide) (by decide) (by decide) (by decide)⟩

/-! ## Presentation selection engine
(`PlaylistPresentationModule._select_candidate` and helpers)

The per-feature persisted state is a JSON dict; the fields these
functions read (`cursor`, `direction`, `history`, `last_value`,
`round_robin_*`) become structure fields whose defaults are the
`dict.get` defaults of the code.  `random.Random` is the oracle
described in the header: `rng.choice(xs)` / `rng.randrange(n)` consume
one natural from `ints` (reduced modulo the population size, so every
pick is reachable), `rng.random()` consumes one rational from `floats`.
Python list indexing `xs[i]` with an `int` is `pyGet` (negative indices
wrap once; out-of-range raises `IndexError`, modelled as
`Except.error`). -/

/-- Selection strategy names (`FeatureSelection.mode`). -/
inductive SelectionMode where
  | sequential | random | weighted_random | round_robin
deriving DecidableEq, Repr

/-- Restart policies for the sequential strategy. -/
inductive RestartPolicy where
  | loop | bounce | random_restart
deriving DecidableEq, Repr

/-- `FeatureSelection` (pydantic model; `dedupe_window ≥ 0` is enforced
by the schema, hence `Nat`). -/
structure FeatureSelection where
  mode : SelectionMode := .sequential
  dedupe_window : Nat := 0
  restart_policy : RestartPolicy := .loop
  group_key : Option String := none
deriving DecidableEq, Repr

/-- One entry of the candidate list. -/
structure AssetCandidate where
  value : String
  weight : ℚ := 1
  source_id : String := ""
deriving DecidableEq, Repr

/-- The per-feature slice of persisted state read by the selection
helpers.  Defaults are the `dict.get(…, default)` values. -/
structure FeatureState where
  cursor : Int := 0
  direction : Int := 1
  history : List String := []
  last_value : Option String := none
  last_value_at : Option Int := none
  round_robin_cycle : Option (List String) := none
  round_robin_pointer : Int := 0
  round_robin_indices : List (String × Int) := []
deriving DecidableEq, Repr

/-- The random-oracle streams. -/
structure Rng where
  ints : List Nat := []
  floats : List ℚ := []
deriving DecidableEq, Repr

/-- Consume one `rng.choice`/`randrange` driver. -/
def Rng.nextInt (r : Rng) : Nat × Rng :=
  (r.ints.headD 0, { r with ints := r.ints.tail })

/-- Consume one `rng.random()` driver. -/
def Rng.nextFloat (r : Rng) : ℚ × Rng :=
  (r.floats.headD 0, { r with floats := r.floats.tail })

/-- Python slice `l[-n:]` for `n ≥ 1` (the code only slices with the
dedupe window strictly positive). -/
def lastN (n : Nat) (l : List α) : List α := l.drop (l.length - n)

/-- Python list indexing with an `int`: negative indices address from
the end; anything outside `[-len, len)` raises `IndexError` (`none`). -/
def pyGet (l : List α) (i : Int) : Option α :=
  if 0 ≤ i then l.get? i.toNat
  else if -(l.length : Int) ≤ i then l.get? ((l.length : Int) + i).toNat
  else none

/-- Python dict lookup in an association list. -/
def assocGet (l : List (String × α)) (k : String) : Option α :=
  (l.find? (fun kv => kv.1 == k)).map (fun kv => kv.2)

/-- Python dict assignment in an association list. -/
def assocSet (l : List (String × α)) (k : String) (v : α) :
    List (String × α) :=
  if l.any (fun kv => kv.1 == k) then
    l.map (fun kv => if kv.1 == k then (k, v) else kv)
  else l ++ [(k, v)]

/-- The cursor-normalisation block of `_select_sequential` (the
`if/elif/else` chain over the restart policy): `random_restart` reseeds
only when the cursor ran off the end, `bounce` reflects an out-of-range
cursor, and every remaining case — `loop`, and `random_restart` with a
cursor below the length — takes `cursor % len(values)`.  `len` is the
candidate count (positive at every call site). -/
def seqNormalize (sel : FeatureSelection) (len : Nat) (c0 d0 : Int)
    (rng : Rng) : Int × Int × Rng :=
  if sel.restart_policy = .random_restart ∧ (len : Int) ≤ c0 then
    (((rng.nextInt.1 % len : Nat) : Int), d0, rng.nextInt.2)
  else if sel.restart_policy = .bounce then
    if (len : Int) ≤ c0 ∨ c0 < 0 then
      (max 0 (min ((len : Int) - 1) (c0 + -d0)), -d0, rng)
    else (c0, d0, rng)
  else (c0 % (len : Int), d0, rng)

/-- `PlaylistPresentationModule._select_sequential`: normalise the
cursor, optionally advance once for `force_next`, index the value list,
and persist `cursor + direction`. -/
def select_sequential (candidates : List AssetCandidate)
    (fs : FeatureState) (sel : FeatureSelection) (rng : Rng)
    (force_next : Bool) :
    Except Unit (Option String × FeatureState × Rng) :=
  if candidates.isEmpty then .ok (none, fs, rng)
  else
    let values := candidates.map (fun c => c.value)
    let n : Int := (values.length : Int)
    let st := seqNormalize sel values.length fs.cursor fs.direction rng
    let c1 := st.1
    let d1 := st.2.1
    let rng1 := st.2.2
    let c2 := if force_next then (c1 + 1) % n else c1
    let fs' := { fs with cursor := c2 + d1, direction := d1 }
    match pyGet values c2 with
    | some v => .ok (some v, fs', rng1)
    | none => .error ()

/-- The retry loop of `_select_random`: while the choice is in the
recent window and fewer than five retries were spent, draw again. -/
def randomRetry (values recent : List String) :
    Nat → String → Rng → String × Rng
  | 0, choice, rng => (choice, rng)
  | fuel + 1, choice, rng =>
      if choice ∈ recent then
        randomRetry values recent fuel
          (values.getD (rng.nextInt.1 % values.length) "") rng.nextInt.2
      else (choice, rng)

/-- `PlaylistPresentationModule._select_random`. -/
def select_random (candidates : List AssetCandidate) (fs : FeatureState)
    (sel : FeatureSelection) (rng : Rng) :
    Option String × FeatureState × Rng :=
  if candidates.isEmpty then (none, fs, rng)
  else
    let values := candidates.map (fun c => c.value)
    let choice0 := values.getD (rng.nextInt.1 % values.length) ""
    if 0 < sel.dedupe_window then
      let res := randomRetry values (lastN sel.dedupe_window fs.history)
        5 choice0 rng.nextInt.2
      (some res.1, fs, res.2)
    else (some choice0, fs, rng.nextInt.2)

/-- `PlaylistPresentationModule._select_random_alternative`. -/
def select_random_alternative (candidates : List AssetCandidate)
    (history : List String) (window : Nat) (rng : Rng) :
    Option String × Rng :=
  let values := (candidates.map (fun c => c.value)).filter
    (fun v => !(lastN window history).contains v)
  if values.isEmpty then (none, rng)
  else (some (values.getD (rng.nextInt.1 % values.length) ""), rng.nextInt.2)

/-- The cumulative-weight walk of `_select_weighted_random`
(`for candidate, weight in zip(...): upto += weight; if pick <= upto:
return candidate.value`, falling back to the last candidate). -/
def weightedWalk (pick : ℚ) (lastValue : String) :
    List AssetCandidate → ℚ → String
  | [], _ => lastValue
  | c :: rest, upto =>
      if pick ≤ upto + c.weight then c.value
      else weightedWalk pick lastValue rest (upto + c.weight)

/-- `PlaylistPresentationModule._select_weighted_random`. -/
def select_weighted_random (candidates : List AssetCandidate)
    (fs : FeatureState) (sel : FeatureSelection) (rng : Rng) :
    Option String × FeatureState × Rng :=
  if candidates.isEmpty then (none, fs, rng)
  else
    let total := (candidates.map (fun c => c.weight)).sum
    if total ≤ 0 then select_random candidates fs sel rng
    else
      (some (weightedWalk (rng.nextFloat.1 * total)
        (((candidates.getLast?).map (fun c => c.value)).getD "")
        candidates 0), fs, rng.nextFloat.2)

/-- The pointer walk of `_select_round_robin`: at most `len(cycle)`
probes, advancing past empty buckets. -/
def rrLoop (bucket_map : List (String × List String))
    (cycle : List String) (indices : List (String × Int)) :
    Nat → Int → Option (String × Int × List (String × Int))
  | 0, _ => none
  | fuel + 1, pointer =>
      let source_id := cycle.getD (pointer % (cycle.length : Int)).toNat ""
      let entries := (assocGet bucket_map source_id).getD []
      let idx := (assocGet indices source_id).getD 0
      if entries.isEmpty then rrLoop bucket_map cycle indices fuel (pointer + 1)
      else
        some (entries.getD (idx % (entries.length : Int)).toNat "",
          pointer + 1, assocSet indices source_id (idx + 1))

/-- `PlaylistPresentationModule._select_round_robin`. -/
def select_round_robin (bucket_map : List (String × List String))
    (candidates : List AssetCandidate) (fs : FeatureState) :
    Option String × FeatureState :=
  if candidates.isEmpty then (none, fs)
  else if bucket_map.isEmpty then
    ((candidates.map (fun c => c.value)).get?
      (fs.cursor % (candidates.length : Int)).toNat, fs)
  else
    let new_cycle := bucket_map.map (fun kv => kv.1)
    let fs1 :=
      if fs.round_robin_cycle ≠ some new_cycle then
        { fs with round_robin_cycle := some new_cycle,
                  round_robin_pointer := 0, round_robin_indices := [] }
      else fs
    let cycle := fs1.round_robin_cycle.getD new_cycle
    match rrLoop bucket_map cycle fs1.round_robin_indices cycle.length
        fs1.round_robin_pointer with
    | some (v, ptr, idxs) =>
        (some v, { fs1 with round_robin_pointer := ptr,
                            round_robin_indices := idxs })
    | none => (some (candidates.headD ⟨"", 1, ""⟩).value, fs1)

/-- Group caches: `groups_state[group_key]["cache"]`, keyed by
`(phase, global_run_count)`. -/
abbrev GroupsState := List (String × List ((String × Int) × String))

/-- Lookup in a group cache. -/
def cacheGet (cache : List ((String × Int) × String)) (k : String × Int) :
    Option String :=
  (cache.find? (fun kv => kv.1 == k)).map (fun kv => kv.2)

/-- Assignment in a group cache. -/
def cacheSet (cache : List ((String × Int) × String)) (k : String × Int)
    (v : String) : List ((String × Int) × String) :=
  if cache.any (fun kv => kv.1 == k) then
    cache.map (fun kv => if kv.1 == k then (k, v) else kv)
  else cache ++ [(k, v)]

/-- `groups_state.setdefault(group_key, {})` (the nested `cache`
setdefault is folded in: a fresh group holds an empty cache). -/
def groupsEnsure (groups : GroupsState) (gk : String) : GroupsState :=
  if groups.any (fun kv => kv.1 == gk) then groups else groups ++ [(gk, [])]

/-- Store into a group cache. -/
def groupsStore (groups : GroupsState) (gk : String) (k : String × Int)
    (v : String) : GroupsState :=
  let groups := groupsEnsure groups gk
  groups.map (fun kv => if kv.1 == gk then (gk, cacheSet kv.2 k v) else kv)

/-- `PlaylistPresentationModule._select_candidate`.  `grc` is
`presentation_state.get("global_run_count", 0)`; `now` is the instant
stamped into `last_value_at`.  A value cached for the group short-cuts
the selection; after strategy dispatch, a value found inside the last-W
history window is replaced for the random strategies by a uniform pick
from the unseen candidates when that pick is a non-empty string
(`if alt:`), or re-selected with `force_next` for the sequential
strategy.  (The code stores the group value even when it is `None`;
a cached `None` behaves exactly like an absent key on lookup, so the
model stores only non-`None` values.) -/
def select_candidate (sel : FeatureSelection) (fs : FeatureState)
    (groups : GroupsState) (grc : Int) (now : Int)
    (candidates : List AssetCandidate)
    (bucket_map : List (String × List String)) (phase : String)
    (rng : Rng) :
    Except Unit (Option String × FeatureState × GroupsState × Rng) :=
  let gkOpt : Option String :=
    match sel.group_key with
    | some gk => if gk = "" then none else some gk
    | none => none
  let groups1 :=
    match gkOpt with
    | some gk => groupsEnsure groups gk
    | none => groups
  let cached : Option String :=
    match gkOpt with
    | some gk => cacheGet ((assocGet groups1 gk).getD []) (phase, grc)
    | none => none
  match cached with
  | some v => .ok (some v, fs, groups1, rng)
  | none =>
    let step : Except Unit (Option String × FeatureState × Rng) :=
      match sel.mode with
      | .sequential => select_sequential candidates fs sel rng false
      | .random => .ok (select_random candidates fs sel rng)
      | .weighted_random => .ok (select_weighted_random candidates fs sel rng)
      | .round_robin =>
          .ok ((select_round_robin bucket_map candidates fs).1,
            (select_round_robin bucket_map candidates fs).2, rng)
    match step with
    | .error e => .error e
    | .ok (none, fs1, rng1) => .ok (none, fs1, groups1, rng1)
    | .ok (some value, fs1, rng1) =>
      let dedupeStep : Except Unit (Option String × FeatureState × Rng) :=
        if 0 < sel.dedupe_window
            ∧ value ∈ lastN sel.dedupe_window fs1.history then
          if sel.mode = .random ∨ sel.mode = .weighted_random then
            let res := select_random_alternative candidates
              fs1.history sel.dedupe_window rng1
            match res.1 with
            | some a =>
                if a ≠ "" then .ok (some a, fs1, res.2)
                else .ok (some value, fs1, res.2)
            | none => .ok (some value, fs1, res.2)
          else if sel.mode = .sequential then
            select_sequential candidates fs1 sel rng1 true
          else .ok (some value, fs1, rng1)
        else .ok (some value, fs1, rng1)
      match dedupeStep with
      | .error e => .error e
      | .ok (value2, fs2, rng2) =>
        let groups2 :=
          match gkOpt, value2 with
          | some gk, some v2 => groupsStore groups1 gk (phase, grc) v2
          | _, _ => groups1
        .ok (value2, { fs2 with last_value_at := some now }, groups2, rng2)

/-- `PlaylistPresentationModule._trim_history`. -/
def trim_history (history : List String) (window : Nat) : List String :=
  if window = 0 then []
  else if window * 2 < history.length then lastN (window * 2) history
  else history

/-- The post-selection bookkeeping of `_determine_feature_outcome`:
`feature_state["last_value"] = outcome`,
`feature_state.setdefault("history", []).append(outcome)`,
`self._trim_history(history, dedupe_window)`. -/
def record_outcome (fs : FeatureState) (outcome : String) (window : Nat) :
    FeatureState :=
  { fs with last_value := some outcome,
            history := trim_history (fs.history ++ [outcome]) window }

theorem getD_mem {α : Type} {l : List α} {i : Nat} (h : i < l.length)
    (d : α) : l.getD i d ∈ l := by
  rw [List.getD_eq_getElem?_getD, List.getElem?_eq_getElem h]
  simp only [Option.getD_some]
  exact List.getElem_mem h

theorem pyGet_in_range {α : Type} {l : List α} {i : Int}
    (h0 : 0 ≤ i) (h1 : i < (l.length : Int)) :
    ∃ v, pyGet l i = some v ∧ v ∈ l := by
  unfold pyGet
  rw [if_pos h0]
  have hlt : i.toNat < l.length := by omega
  rw [List.get?_eq_getElem?, List.getElem?_eq_getElem hlt]
  exact ⟨_, rfl, List.getElem_mem hlt⟩

theorem seqNormalize_in_range (sel : FeatureSelection) (len : Nat)
    (c0 d0 : Int) (rng : Rng) (hlen : 0 < len) :
    0 ≤ (seqNormalize sel len c0 d0 rng).1
      ∧ (seqNormalize sel len c0 d0 rng).1 < (len : Int) := by
  unfold seqNormalize
  have hn : (0 : Int) < (len : Int) := by exact_mod_cast hlen
  split_ifs with h1 h2 h3
  · have hm := Nat.mod_lt (rng.nextInt.1) hlen
    refine ⟨?_, ?_⟩
    · show (0 : Int) ≤ ((rng.nextInt.1 % len : Nat) : Int)
      omega
    · show ((rng.nextInt.1 % len : Nat) : Int) < (len : Int)
      omega
  · refine ⟨?_, ?_⟩
    · show (0 : Int) ≤ max 0 (min ((len : Int) - 1) (c0 + -d0))
      omega
    · show max 0 (min ((len : Int) - 1) (c0 + -d0)) < (len : Int)
      omega
  · refine ⟨?_, ?_⟩
    · show (0 : Int) ≤ c0
      omega
    · show c0 < (len : Int)
      omega
  · refine ⟨?_, ?_⟩
    · show (0 : Int) ≤ c0 % (len : Int)
      exact Int.emod_nonneg c0 (by omega)
    · show c0 % (len : Int) < (len : Int)
      exact Int.emod_lt_of_pos c0 hn

/-- C10: sequential selection from a non-empty candidate list always
yields an element of the list — for every persisted cursor and
direction, every restart policy, and with or without the dedupe
`force_next` step, the computed index is normalised into range before
the list is indexed, so no `IndexError` is possible. -/
theorem select_sequential_total (candidates : List AssetCandidate)
    (fs : FeatureState) (sel : FeatureSelection) (rng : Rng)
    (force_next : Bool) (hne : candidates ≠ []) :
    ∃ v fs' rng',
      select_sequential candidates fs sel rng force_next
        = .ok (some v, fs', rng')
      ∧ v ∈ candidates.map (fun c => c.value) := by
  unfold select_sequential
  have hemp : candidates.isEmpty = false := by
    simpa [List.isEmpty_iff] using hne
  rw [hemp]
  simp only [Bool.false_eq_true, if_false]
  have hlen : 0 < (candidates.map (fun c => c.value)).length := by
    simpa [List.length_map] using List.length_pos.mpr hne
  have hnorm := seqNormalize_in_range sel
    (candidates.map (fun c => c.value)).length fs.cursor fs.direction rng hlen
  set st := seqNormalize sel (candidates.map (fun c => c.value)).length
    fs.cursor fs.direction rng with hst
  have hn : (0 : Int) < ((candidates.map (fun c => c.value)).length : Int) :=
    by exact_mod_cast hlen
  have hc2 : 0 ≤ (if force_next then (st.1 + 1)
        % ((candidates.map (fun c => c.value)).length : Int) else st.1)
      ∧ (if force_next then (st.1 + 1)
        % ((candidates.map (fun c => c.value)).length : Int) else st.1)
        < ((candidates.map (fun c => c.value)).length : Int) := by
    split_ifs
    · exact ⟨Int.emod_nonneg _ (by omega), Int.emod_lt_of_pos _ hn⟩
    · exact hnorm
  obtain ⟨v, hv, hvmem⟩ := pyGet_in_range hc2.1 hc2.2
  simp only [hv]
  exact ⟨v, _, _, rfl, hvmem⟩

/-- A concrete run of the sequential selector: `random_restart` with a
negative stored cursor and a shrunken candidate list still returns an
element. -/
theorem select_sequential_total_witness :
    ([({ value := "a" } : AssetCandidate), { value := "b" },
      { value := "c" }] ≠ [])
    ∧ (∃ v fs' rng',
        select_sequential
          [({ value := "a" } : AssetCandidate), { value := "b" },
           { value := "c" }]
          { cursor := -7, direction := -1 }
          { mode := .sequential, restart_policy := .random_restart }
          { ints := [1] } false
          = .ok (some v, fs', rng')
        ∧ v ∈ ([({ value := "a" } : AssetCandidate), { value := "b" },
            { value := "c" }]).map (fun c => c.value)) :=
  ⟨by decide,
   select_sequential_total
     [{ value := "a" }, { value := "b" }, { value := "c" }]
     { cursor := -7, direction := -1 }
     { mode := .sequential, restart_policy := .random_restart }
     { ints := [1] } false (by decide)⟩

theorem mem_of_getLast?_eq {α : Type} :
    ∀ (l : List α) (x : α), l.getLast? = some x → x ∈ l := by
  intro l
  induction l with
  | nil => intro x h; simp at h
  | cons a t ih =>
      intro x h
      match t with
      | [] =>
          have : a = x := by simpa using h
          simp [this]
      | b :: t' =>
          rw [List.getLast?_cons_cons] at h
          exact List.mem_cons_of_mem a (ih x h)

theorem getLast?_drop_of_lt {α : Type} :
    ∀ (l : List α) (k : Nat), k < l.length →
      (l.drop k).getLast? = l.getLast? := by
  intro l
  induction l with
  | nil => intro k h; simp at h
  | cons a t ih =>
      intro k h
      match k with
      | 0 => rfl
      | k + 1 =>
          simp only [List.drop_succ_cons]
          have hk : k < t.length := by simpa using h
          rw [ih k hk]
          match t, hk with
          | b :: t', _ => rw [List.getLast?_cons_cons]

theorem getLast?_lastN {α : Type} {l : List α} {x : α} {n : Nat}
    (hn : 1 ≤ n) (h : l.getLast? = some x) :
    (lastN n l).getLast? = some x := by
  have hne : l ≠ [] := by intro he; rw [he] at h; simp at h
  have hlen : 0 < l.length := List.length_pos.mpr hne
  unfold lastN
  rw [getLast?_drop_of_lt l (l.length - n) (by omega)]
  exact h

theorem getLast?_mem_lastN {α : Type} {l : List α} {x : α} {n : Nat}
    (hn : 1 ≤ n) (h : l.getLast? = some x) : x ∈ lastN n l :=
  mem_of_getLast?_eq _ x (getLast?_lastN hn h)

/-- C9: after the post-selection bookkeeping, a feature with
`dedupe_window = 0` keeps an empty history — the selected value is
recorded only in `last_value` — while a feature with `dedupe_window = W
≥ 1` keeps at most `2 × W` history entries with the newest selection
last. -/
theorem record_outcome_spec (fs : FeatureState) (outcome : String)
    (W : Nat) :
    (W = 0 → (record_outcome fs outcome W).history = []
      ∧ (record_outcome fs outcome W).last_value = some outcome)
    ∧ (1 ≤ W → (record_outcome fs outcome W).history.length ≤ 2 * W
      ∧ (record_outcome fs outcome W).history.getLast? = some outcome
      ∧ (record_outcome fs outcome W).last_value = some outcome) := by
  constructor
  · intro h
    subst h
    exact ⟨by simp [record_outcome, trim_history], rfl⟩
  · intro hW
    have hW0 : W ≠ 0 := by omega
    refine ⟨?_, ?_, rfl⟩
    · simp only [record_outcome, trim_history, hW0, if_false]
      split_ifs with h
      · unfold lastN
        simp only [List.length_drop]
        omega
      · simp only [List.length_append, List.length_cons,
          List.length_nil] at h ⊢
        omega
    · simp only [record_outcome, trim_history, hW0, if_false]
      split_ifs with h
      · exact getLast?_lastN (by omega) (by simp)
      · simp

theorem record_outcome_spec_witness :
    ((record_outcome { history := ["x", "y"] } "a" 0).history = []
      ∧ (record_outcome { history := ["x", "y"] } "a" 0).last_value
        = some "a")
    ∧ ((1 : Nat) ≤ 1
      ∧ ((record_outcome { history := ["x", "y"] } "a" 1).history.length
          ≤ 2 * 1
        ∧ (record_outcome { history := ["x", "y"] } "a" 1).history.getLast?
          = some "a"
        ∧ (record_outcome { history := ["x", "y"] } "a" 1).last_value
          = some "a")) :=
  ⟨(record_outcome_spec { history := ["x", "y"] } "a" 0).1 rfl,
   by decide,
   (record_outcome_spec { history := ["x", "y"] } "a" 1).2 (by decide)⟩

theorem randomRetry_mem {values recent : List String}
    (hne : values ≠ []) :
    ∀ (fuel : Nat) (choice : String) (rng : Rng), choice ∈ values →
      (randomRetry values recent fuel choice rng).1 ∈ values := by
  intro fuel
  induction fuel with
  | zero => intro choice rng h; exact h
  | succ fuel ih =>
      intro choice rng h
      rw [randomRetry]
      split_ifs with hc
      · exact ih _ _ (getD_mem (Nat.mod_lt _ (List.length_pos.mpr hne)) "")
      · exact h

theorem select_random_spec (candidates : List AssetCandidate)
    (fs : FeatureState) (sel : FeatureSelection) (rng : Rng)
    (hne : candidates ≠ []) :
    ∃ c rng', select_random candidates fs sel rng = (some c, fs, rng')
      ∧ c ∈ candidates.map (fun c => c.value) := by
  unfold select_random
  have hemp : candidates.isEmpty = false := by
    simpa [List.isEmpty_iff] using hne
  rw [hemp]
  simp only [Bool.false_eq_true, if_false]
  have hvne : candidates.map (fun c => c.value) ≠ [] := by simpa using hne
  have hlen := List.length_pos.mpr hvne
  have hmem0 := getD_mem (l := candidates.map (fun c => c.value))
    (Nat.mod_lt rng.nextInt.1 hlen) ""
  split_ifs with hW
  · exact ⟨_, _, rfl, randomRetry_mem hvne 5 _ _ hmem0⟩
  · exact ⟨_, _, rfl, hmem0⟩

theorem weightedWalk_mem (pick : ℚ) (lv : String) :
    ∀ (l : List AssetCandidate) (upto : ℚ),
      weightedWalk pick lv l upto = lv
        ∨ weightedWalk pick lv l upto ∈ l.map (fun c => c.value) := by
  intro l
  induction l with
  | nil => intro upto; left; rfl
  | cons c rest ih =>
      intro upto
      rw [weightedWalk]
      split_ifs with h
      · right; simp
      · rcases ih (upto + c.weight) with h2 | h2
        · left; exact h2
        · right
          simp only [List.map_cons, List.mem_cons]
          exact Or.inr h2

theorem select_weighted_spec (candidates : List AssetCandidate)
    (fs : FeatureState) (sel : FeatureSelection) (rng : Rng)
    (hne : candidates ≠ []) :
    ∃ c rng',
      select_weighted_random candidates fs sel rng = (some c, fs, rng')
      ∧ c ∈ candidates.map (fun c => c.value) := by
  unfold select_weighted_random
  have hemp : candidates.isEmpty = false := by
    simpa [List.isEmpty_iff] using hne
  rw [hemp]
  simp only [Bool.false_eq_true, if_false]
  split_ifs with ht
  · exact select_random_spec candidates fs sel rng hne
  · cases hlast : candidates.getLast? with
    | none => exact absurd (by simpa using hlast) hne
    | some last =>
        have hmem : last.value ∈ candidates.map (fun c => c.value) :=
          List.mem_map_of_mem _ (mem_of_getLast?_eq _ _ hlast)
        rcases weightedWalk_mem (rng.nextFloat.1
            * (candidates.map (fun c => c.weight)).sum)
            ((Option.map (fun c => c.value) (some last)).getD "")
            candidates 0 with h | h
        · refine ⟨_, _, rfl, ?_⟩
          rw [h]
          exact hmem
        · exact ⟨_, _, rfl, h⟩

theorem select_random_alternative_spec (candidates : List AssetCandidate)
    (history : List String) (W : Nat) (rng : Rng)
    (hpool : (candidates.map (fun c => c.value)).filter
        (fun v => !(lastN W history).contains v) ≠ []) :
    ∃ a rng',
      select_random_alternative candidates history W rng = (some a, rng')
      ∧ a ∈ candidates.map (fun c => c.value) ∧ a ∉ lastN W history := by
  unfold select_random_alternative
  have hemp : ((candidates.map (fun c => c.value)).filter
      (fun v => !(lastN W history).contains v)).isEmpty = false := by
    simpa [List.isEmpty_iff] using hpool
  simp only [hemp, Bool.false_eq_true, if_false]
  have hmem := getD_mem (l := (candidates.map (fun c => c.value)).filter
      (fun v => !(lastN W history).contains v))
    (Nat.mod_lt rng.nextInt.1 (List.length_pos.mpr hpool)) ""
  have h1 := (List.mem_filter.mp hmem).1
  have h2 := (List.mem_filter.mp hmem).2
  refine ⟨_, _, rfl, h1, ?_⟩
  simpa using h2

/-- C6 (amended): for the `random` and `weighted_random` strategies with
dedupe window `W ≥ 1`, more candidates than `W`, no grouping, and
non-empty candidate strings, whenever some candidate value is absent
from the last `W` history entries the selected value is itself absent
from those entries — in particular it differs from the previous
(newest) history entry, so two consecutive selections never collide. -/
theorem dedupe_window_no_repeat
    (candidates : List AssetCandidate) (fs : FeatureState)
    (sel : FeatureSelection) (groups : GroupsState) (grc now : Int)
    (bucket_map : List (String × List String)) (phase : String) (rng : Rng)
    (hmode : sel.mode = .random ∨ sel.mode = .weighted_random)
    (hgk : sel.group_key = none)
    (hW : 1 ≤ sel.dedupe_window)
    (hlen : sel.dedupe_window < candidates.length)
    (hnonempty : ∀ c ∈ candidates, c.value ≠ "")
    (halt : ∃ v ∈ candidates.map (fun c => c.value),
        v ∉ lastN sel.dedupe_window fs.history) :
    ∃ u fs' groups' rng',
      select_candidate sel fs groups grc now candidates bucket_map phase rng
        = .ok (some u, fs', groups', rng')
      ∧ u ∉ lastN sel.dedupe_window fs.history
      ∧ ∀ prev, fs.history.getLast? = some prev → u ≠ prev := by
  have hne : candidates ≠ [] := by
    intro h
    rw [h] at hlen
    simp at hlen
  obtain ⟨c, rngc, hceq, hcmem⟩ :
      ∃ c rngc,
        (match sel.mode with
          | .sequential => select_sequential candidates fs sel rng false
          | .random => .ok (select_random candidates fs sel rng)
          | .weighted_random =>
              .ok (select_weighted_random candidates fs sel rng)
          | .round_robin =>
              .ok ((select_round_robin bucket_map candidates fs).1,
                (select_round_robin bucket_map candidates fs).2, rng))
          = (.ok (some c, fs, rngc) :
              Except Unit (Option String × FeatureState × Rng))
        ∧ c ∈ candidates.map (fun x => x.value) := by
    rcases hmode with hm | hm <;> rw [hm]
    · obtain ⟨c, rng', heq, hmem⟩ :=
        select_random_spec candidates fs sel rng hne
      exact ⟨c, rng', by rw [heq], hmem⟩
    · obtain ⟨c, rng', heq, hmem⟩ :=
        select_weighted_spec candidates fs sel rng hne
      exact ⟨c, rng', by rw [heq], hmem⟩
  have hlast : ∀ u, u ∉ lastN sel.dedupe_window fs.history →
      ∀ prev, fs.history.getLast? = some prev → u ≠ prev := by
    intro u hu prev hprev heq
    exact hu (heq ▸ getLast?_mem_lastN hW hprev)
  unfold select_candidate
  simp only [hgk, hceq]
  by_cases hin : c ∈ lastN sel.dedupe_window fs.history
  · -- duplicate pick: the alternative pool is consulted
    obtain ⟨v, hvmem, hvnot⟩ := halt
    have hpool : (candidates.map (fun c => c.value)).filter
        (fun v => !(lastN sel.dedupe_window fs.history).contains v) ≠ [] :=
      List.ne_nil_of_mem (List.mem_filter.mpr ⟨hvmem, by simpa using hvnot⟩)
    obtain ⟨a, rnga, haeq, hamem, hanot⟩ :=
      select_random_alternative_spec candidates fs.history
        sel.dedupe_window rngc hpool
    have hane : a ≠ "" := by
      obtain ⟨cand, hcand, hcv⟩ := List.mem_map.mp hamem
      rw [← hcv]
      exact hnonempty cand hcand
    rw [if_pos ⟨by omega, hin⟩, if_pos hmode]
    simp only [haeq]
    rw [if_pos hane]
    exact ⟨a, _, _, _, rfl, hanot, hlast a hanot⟩
  · rw [if_neg (by intro h; exact hin h.2)]
    exact ⟨c, _, _, _, rfl, hin, hlast c hin⟩

/-- C6 (corrected): as stated, the claim fails when the only candidate
absent from the window is the empty string.  With candidates
`["a", ""]`, window 1, history `["a"]` and a random stream that always
draws index 0, the selector retries five times, the fallback pool pick
is `""`, and the `if alt:` truthiness test discards it, so the duplicate
`"a"` — equal to the previous selection — is returned even though an
alternative (`""`) was available. -/
theorem dedupe_empty_string_counterexample :
    (select_candidate { mode := .random, dedupe_window := 1 }
        { history := ["a"] } [] 0 0
        [{ value := "a" }, { value := "" }] [] "p"
        { ints := [0, 0, 0, 0, 0, 0, 0] }
      = .ok (some "a", { history := ["a"], last_value_at := some 0 }, [],
          { ints := [] }))
    ∧ ({ history := ["a"] } : FeatureState).history.getLast? = some "a"
    ∧ ("" ∈ ([{ value := "a" }, { value := "" }] :
        List AssetCandidate).map (fun c => c.value)
      ∧ "" ∉ lastN 1 (["a"] : List String)) := by
  refine ⟨rfl, by decide, by decide, by decide⟩

theorem dedupe_window_no_repeat_witness :
    ((1 : Nat) ≤ 1 ∧ (1 : Nat) < 2
      ∧ (∀ c ∈ [({ value := "a" } : AssetCandidate), { value := "b" }],
          c.value ≠ "")
      ∧ (∃ v ∈ ([({ value := "a" } : AssetCandidate),
          { value := "b" }]).map (fun c => c.value),
          v ∉ lastN 1 (["a"] : List String)))
    ∧ (∃ u fs' groups' rng',
        select_candidate { mode := .random, dedupe_window := 1 }
          { history := ["a"] } [] 0 0
          [{ value := "a" }, { value := "b" }] [] "p" { ints := [0, 0] }
          = .ok (some u, fs', groups', rng')
        ∧ u ∉ lastN 1 (({ history := ["a"] } : FeatureState).history)
        ∧ ∀ prev,
            (({ history := ["a"] } : FeatureState).history).getLast?
              = some prev → u ≠ prev) :=
  ⟨⟨by decide, by decide, by decide, ⟨"b", by decide, by decide⟩⟩,
   dedupe_window_no_repeat [{ value := "a" }, { value := "b" }]
     { history := ["a"] } { mode := .random, dedupe_window := 1 } [] 0 0
     [] "p" { ints := [0, 0] } (Or.inl rfl) rfl (by decide) (by decide)
     (by decide) ⟨"b", by decide, by decide⟩⟩

/-! ## Shared playlist cache (`Supervisor._refresh_shared_playlist_cache`)

Each configured `playlist_cache` sync contributes one state file,
modelled as a `CacheFile`: whether `path.stat()` succeeds, the file
mtime, whether `data["playlists"]` is a list, that list, and the
already-parsed `last_refreshed` timestamp (`none` when the field is
absent, falsy or unparsable — the code then falls back to
`fromtimestamp(mtime)`).  Timestamps are integer seconds on one shared
timeline.  The supervisor slice is the in-memory cache and the
remembered per-path mtimes. -/

/-- One entry of a cached `playlists` list (a JSON value; `isDict`
false models a non-dict entry, which the index builder skips).  `id` is
the string form of `entry.get("id")`, with `""` for a missing or falsy
id; `name` is `entry.get("name", "")`, with `none` for a non-string
name. -/
structure PlaylistEntry where
  isDict : Bool := true
  id : String := ""
  name : Option String := some ""
deriving DecidableEq, Repr

/-- A cache-producing job's state file as seen by the refresh loop. -/
structure CacheFile where
  path : String
  present : Bool := true
  mtime : Int := 0
  playlistsValid : Bool := true
  playlists : List PlaylistEntry := []
  lastRefreshed : Option Int := none
deriving DecidableEq, Repr

/-- The installed shared cache. -/
structure SharedCache where
  last_refreshed : Int
  playlists : List PlaylistEntry
  by_name : List (String × PlaylistEntry)
  by_id : List (String × PlaylistEntry)
deriving DecidableEq, Repr

/-- The supervisor fields the refresh reads and writes:
`_shared_playlist_cache` and `_playlist_cache_mtimes`. -/
structure CacheState where
  cache : Option SharedCache := none
  mtimes : List (String × Int) := []
deriving DecidableEq, Repr

/-- `name.strip().lower()` (ASCII case folding). -/
def pyLowerStrip (s : String) : String :=
  String.mk ((pyStrip s.data).map Char.toLower)

/-- Rebuild the `by_name` / `by_id` indices: skip non-dict entries,
index truthy ids, index string names lowercased and trimmed; last write
wins on collision. -/
def buildIndices (entries : List PlaylistEntry) :
    List (String × PlaylistEntry) × List (String × PlaylistEntry) :=
  entries.foldl
    (fun acc entry =>
      if !entry.isDict then acc
      else
        let byId :=
          if entry.id ≠ "" then assocSet acc.2 entry.id entry else acc.2
        let byName :=
          match entry.name with
          | some nm => assocSet acc.1 (pyLowerStrip nm) entry
          | none => acc.1
        (byName, byId))
    ([], [])

/-- The refreshed-at computed for an eligible file: the payload's
`last_refreshed`, falling back to the file mtime, paired with the
payload's playlists. -/
def candidateOf (f : CacheFile) : Int × List PlaylistEntry :=
  (f.lastRefreshed.getD f.mtime, f.playlists)

/-- `if best_cache is None or refreshed_at > best_cache[0]`: keep the
strictly fresher candidate (ties keep the earlier one). -/
def bestUpd (b : Option (Int × List PlaylistEntry))
    (c : Int × List PlaylistEntry) : Option (Int × List PlaylistEntry) :=
  match b with
  | none => some c
  | some b0 => if b0.1 < c.1 then some c else some b0

/-- One iteration of the refresh loop over a file: missing files are
skipped; unforced refreshes with an installed cache skip files whose
mtime is not newer than the remembered one; files whose `playlists` is
not a list are skipped; otherwise the candidate replaces the running
best when strictly fresher, and the file's mtime is remembered. -/
def refreshStep (force : Bool) (st : CacheState)
    (best : Option (Int × List PlaylistEntry)) (f : CacheFile) :
    CacheState × Option (Int × List PlaylistEntry) :=
  if !f.present then (st, best)
  else if !force && st.cache.isSome
      && (match assocGet st.mtimes f.path with
          | some last => decide (f.mtime ≤ last)
          | none => false) then (st, best)
  else if !f.playlistsValid then (st, best)
  else
    ({ st with mtimes := assocSet st.mtimes f.path f.mtime },
     bestUpd best (candidateOf f))

/-- `Supervisor._refresh_shared_playlist_cache`: with no cache-producing
jobs the in-memory cache is cleared; otherwise the loop runs over all
files, and either no candidate was produced — the (possibly stale)
in-memory cache is returned unchanged — or the best candidate is
installed as the new cache. -/
def refresh_shared_playlist_cache (force : Bool) (st : CacheState)
    (files : List CacheFile) : CacheState × Option SharedCache :=
  if files.isEmpty then ({ st with cache := none }, none)
  else
    let res := files.foldl (fun acc f => refreshStep force acc.1 acc.2 f)
      (st, none)
    match res.2 with
    | none => (res.1, res.1.cache)
    | some w =>
        let idx := buildIndices w.2
        let newCache : SharedCache :=
          { last_refreshed := w.1, playlists := w.2,
            by_name := idx.1, by_id := idx.2 }
        ({ res.1 with cache := some newCache }, some newCache)

/-- Whether the loop processes a file into a candidate (it is present,
not skipped by the mtime rule, and has a valid playlists list). -/
def eligible (force : Bool) (st : CacheState) (f : CacheFile) : Bool :=
  f.present
    && !(!force && st.cache.isSome
        && (match assocGet st.mtimes f.path with
            | some last => decide (f.mtime ≤ last)
            | none => false))
    && f.playlistsValid

theorem bestUpd_spec (b : Option (Int × List PlaylistEntry))
    (c : Int × List PlaylistEntry) :
    ∃ u, bestUpd b c = some u ∧ (u = c ∨ b = some u) ∧ c.1 ≤ u.1
      ∧ (∀ b0, b = some b0 → b0.1 ≤ u.1) := by
  match b with
  | none => exact ⟨c, rfl, Or.inl rfl, le_refl _, by intro b0 h; cases h⟩
  | some b0 =>
      by_cases h : b0.1 < c.1
      · refine ⟨c, ?_, Or.inl rfl, le_refl _, ?_⟩
        · simp [bestUpd, h]
        · intro b1 h1
          have he : b0 = b1 := by simpa using h1
          subst he
          omega
      · refine ⟨b0, ?_, Or.inr rfl, by omega, ?_⟩
        · simp [bestUpd, h]
        · intro b1 h1
          have he : b0 = b1 := by simpa using h1
          subst he
          omega

theorem foldl_bestUpd_spec :
    ∀ (cands : List (Int × List PlaylistEntry))
      (b : Option (Int × List PlaylistEntry)),
      (cands.foldl bestUpd b = none → b = none ∧ cands = [])
      ∧ (∀ w, cands.foldl bestUpd b = some w →
          (b = some w ∨ w ∈ cands)
          ∧ (∀ x ∈ cands, x.1 ≤ w.1)
          ∧ (∀ b0, b = some b0 → b0.1 ≤ w.1)) := by
  intro cands
  induction cands with
  | nil =>
      intro b
      refine ⟨fun h => ⟨by simpa using h, rfl⟩, ?_⟩
      intro w h
      simp only [List.foldl_nil] at h
      refine ⟨Or.inl h, by simp, ?_⟩
      intro b0 hb
      rw [hb] at h
      have he : b0 = w := by simpa using h
      rw [he]
  | cons c rest ih =>
      intro b
      obtain ⟨u, hu, hor, hcu, hball⟩ := bestUpd_spec b c
      constructor
      · intro h
        simp only [List.foldl_cons] at h
        have := ((ih (bestUpd b c)).1 h).1
        rw [hu] at this
        cases this
      · intro w h
        simp only [List.foldl_cons] at h
        obtain ⟨hmem, hle, hb0⟩ := (ih (bestUpd b c)).2 w h
        have huw : u.1 ≤ w.1 := hb0 u (by rw [hu])
        constructor
        · rcases hmem with hm | hm
          · rw [hu] at hm
            have : u = w := by simpa using hm
            subst this
            rcases hor with h1 | h1
            · exact Or.inr (by simp [h1])
            · exact Or.inl h1
          · exact Or.inr (List.mem_cons_of_mem c hm)
        · refine ⟨?_, ?_⟩
          · intro x hx
            rcases List.mem_cons.mp hx with hx | hx
            · subst hx
              omega
            · exact hle x hx
          · intro b0 hb
            have := hball b0 hb
            omega

theorem assocGet_map_update_ne {α : Type} (k k' : String) (v : α)
    (h : k' ≠ k) :
    ∀ (l : List (String × α)),
      assocGet (l.map (fun kv => if kv.1 == k then (k, v) else kv)) k'
        = assocGet l k' := by
  intro l
  induction l with
  | nil => rfl
  | cons a t ih =>
      by_cases ha : a.1 = k
      · have h1 : (a.1 == k) = true := by simpa using ha
        have h2 : ((k : String) == k') = false := by
          simp only [beq_eq_false_iff_ne, ne_eq]
          exact fun he => h he.symm
        have h3 : (a.1 == k') = false := by
          simp only [beq_eq_false_iff_ne, ne_eq, ha]
          exact fun he => h he.symm
        simp only [List.map_cons, h1, if_true, assocGet, List.find?_cons,
          h2, h3] at *
        exact ih
      · have h1 : (a.1 == k) = false := by simpa using ha
        simp only [List.map_cons, h1, Bool.false_eq_true, if_false,
          assocGet, List.find?_cons] at *
        cases hak : (a.1 == k') with
        | true => rfl
        | false => exact ih

theorem assocGet_append_single_ne {α : Type} (k k' : String) (v : α)
    (h : k' ≠ k) :
    ∀ (l : List (String × α)),
      assocGet (l ++ [(k, v)]) k' = assocGet l k' := by
  intro l
  induction l with
  | nil =>
      have h2 : ((k : String) == k') = false := by
        simp only [beq_eq_false_iff_ne, ne_eq]
        exact fun he => h he.symm
      simp [assocGet, List.find?, h2]
  | cons a t ih =>
      simp only [List.cons_append, assocGet, List.find?_cons] at *
      cases hak : (a.1 == k') with
      | true => rfl
      | false => exact ih

theorem assocGet_assocSet_ne {α : Type} (k k' : String) (v : α)
    (h : k' ≠ k) (l : List (String × α)) :
    assocGet (assocSet l k v) k' = assocGet l k' := by
  unfold assocSet
  split_ifs with hany
  · exact assocGet_map_update_ne k k' v h l
  · exact assocGet_append_single_ne k k' v h l

theorem refreshStep_eq (force : Bool) (st stA : CacheState)
    (best : Option (Int × List PlaylistEntry)) (f : CacheFile)
    (hc : stA.cache = st.cache)
    (hmf : assocGet stA.mtimes f.path = assocGet st.mtimes f.path) :
    refreshStep force stA best f
      = if eligible force st f then
          ({ stA with mtimes := assocSet stA.mtimes f.path f.mtime },
           bestUpd best (candidateOf f))
        else (stA, best) := by
  unfold refreshStep eligible
  rw [hmf, hc]
  by_cases h1 : f.present
  · by_cases h2 : (!force && st.cache.isSome
        && (match assocGet st.mtimes f.path with
            | some last => decide (f.mtime ≤ last)
            | none => false)) = true
    · simp [h1, h2]
    · by_cases h3 : f.playlistsValid
      · simp [h1, h2, h3]
      · simp [h1, h2, h3]
  · simp [h1]

theorem refresh_fold_spec (force : Bool) (st : CacheState) :
    ∀ (files : List CacheFile) (stA : CacheState)
      (best : Option (Int × List PlaylistEntry)),
      (files.map (fun f => f.path)).Nodup →
      stA.cache = st.cache →
      (∀ f ∈ files, assocGet stA.mtimes f.path
        = assocGet st.mtimes f.path) →
      (files.foldl (fun acc f => refreshStep force acc.1 acc.2 f)
          (stA, best)).2
        = ((files.filter (eligible force st)).map candidateOf).foldl
            bestUpd best
      ∧ (files.foldl (fun acc f => refreshStep force acc.1 acc.2 f)
          (stA, best)).1.cache = st.cache := by
  intro files
  induction files with
  | nil => intro stA best _ hc _; exact ⟨rfl, hc⟩
  | cons f rest ih =>
      intro stA best hnd hc hm
      have hmf := hm f (by simp)
      have hnd' : (rest.map (fun f => f.path)).Nodup := by
        rw [List.map_cons] at hnd
        exact (List.nodup_cons.mp hnd).2
      have hfp : f.path ∉ rest.map (fun f => f.path) := by
        rw [List.map_cons] at hnd
        exact (List.nodup_cons.mp hnd).1
      simp only [List.foldl_cons,
        refreshStep_eq force st stA best f hc hmf]
      by_cases he : eligible force st f
      · rw [if_pos he, List.filter_cons, if_pos he, List.map_cons,
          List.foldl_cons]
        apply ih
        · exact hnd'
        · exact hc
        · intro g hg
          have hgf : g.path ≠ f.path := by
            intro hEq
            exact hfp (hEq ▸ List.mem_map_of_mem (fun f => f.path) hg)
          rw [assocGet_assocSet_ne f.path g.path f.mtime hgf stA.mtimes]
          exact hm g (by simp [hg])
      · have he' : eligible force st f = false := by
          simpa using he
        rw [if_neg he, List.filter_cons, if_neg (by simp [he'])]
        apply ih stA best hnd' hc
        intro g hg
        exact hm g (by simp [hg])

/-- C7 (corrected): the claim's skip rule as stated — "files whose
mtime is not newer than the last seen mtime are skipped unless forced"
— is violated when no in-memory cache is installed: with a remembered
mtime of 5, an unforced refresh over a file with the same mtime 5 loads
and installs it anyway (the code also requires
`self._shared_playlist_cache is not None` to skip), instead of leaving
the (empty) in-memory cache unchanged. -/
theorem cache_refresh_skip_counterexample :
    (assocGet ({ cache := none, mtimes := [("p", 5)] } :
        CacheState).mtimes "p" = some 5
      ∧ ({ path := "p", mtime := 5,
           lastRefreshed := some 10 } : CacheFile).mtime ≤ 5)
    ∧ (refresh_shared_playlist_cache false
        { cache := none, mtimes := [("p", 5)] }
        [{ path := "p", mtime := 5, lastRefreshed := some 10 }]).2
      = some { last_refreshed := 10, playlists := [],
               by_name := [], by_id := [] }
    ∧ (refresh_shared_playlist_cache false
        { cache := none, mtimes := [("p", 5)] }
        [{ path := "p", mtime := 5, lastRefreshed := some 10 }]).2
      ≠ ({ cache := none, mtimes := [("p", 5)] } : CacheState).cache := by
  refine ⟨⟨rfl, by decide⟩, rfl, by decide⟩

/-- C7 (amended): over distinct state-file paths, (i) when an in-memory
cache is installed, an unforced refresh skips any file whose mtime is
not newer than the remembered one; (ii) each eligible file's candidate
carries `refreshed_at = last_refreshed` with fallback to the file mtime
(`candidateOf`); (iii) when no candidate is produced the existing
in-memory cache is returned unchanged (possibly stale); (iv) otherwise
the installed cache is built from a candidate with the largest
`refreshed_at`. -/
theorem cache_refresh_correct (force : Bool) (st : CacheState)
    (files : List CacheFile) (hne : files ≠ [])
    (hdist : (files.map (fun f => f.path)).Nodup) :
    (∀ (st' : CacheState) (best : Option (Int × List PlaylistEntry))
        (f : CacheFile) (last : Int),
        force = false → st'.cache.isSome = true →
        assocGet st'.mtimes f.path = some last → f.mtime ≤ last →
        refreshStep force st' best f = (st', best))
    ∧ ((files.filter (eligible force st)).map candidateOf = [] →
        (refresh_shared_playlist_cache force st files).2 = st.cache)
    ∧ ((files.filter (eligible force st)).map candidateOf ≠ [] →
        ∃ w, w ∈ (files.filter (eligible force st)).map candidateOf
          ∧ (∀ x ∈ (files.filter (eligible force st)).map candidateOf,
              x.1 ≤ w.1)
          ∧ (refresh_shared_playlist_cache force st files).2
              = some { last_refreshed := w.1, playlists := w.2,
                       by_name := (buildIndices w.2).1,
                       by_id := (buildIndices w.2).2 }) := by
  have hemp : files.isEmpty = false := by simpa [List.isEmpty_iff] using hne
  obtain ⟨hfold2, hfold1⟩ := refresh_fold_spec force st files st none hdist
    rfl (fun f _ => rfl)
  refine ⟨?_, ?_, ?_⟩
  · intro st' best f last hforce hsome hget hle
    subst hforce
    unfold refreshStep
    by_cases hp : f.present
    · have hcond : (!false && st'.cache.isSome
          && (match assocGet st'.mtimes f.path with
              | some l => decide (f.mtime ≤ l)
              | none => false)) = true := by
        rw [hget]
        simp [hsome, hle]
      have h1 : (!f.present) = false := by simp [hp]
      rw [h1]
      simp only [Bool.false_eq_true, if_false]
      rw [hcond]
      simp
    · have h1 : (!f.present) = true := by simp [hp]
      rw [h1]
      simp
  · intro hcands
    unfold refresh_shared_playlist_cache
    rw [hemp]
    simp only [Bool.false_eq_true, if_false]
    rw [hcands] at hfold2
    simp only [List.foldl_nil] at hfold2
    simp only [hfold2]
    exact hfold1
  · intro hcands
    cases hres : ((files.filter (eligible force st)).map
        candidateOf).foldl bestUpd none with
    | none =>
        exact absurd ((foldl_bestUpd_spec _ none).1 hres).2 hcands
    | some w =>
        obtain ⟨hmem, hle, _⟩ := (foldl_bestUpd_spec _ none).2 w hres
        refine ⟨w, ?_, hle, ?_⟩
        · rcases hmem with h | h
          · cases h
          · exact h
        · unfold refresh_shared_playlist_cache
          rw [hemp]
          simp only [Bool.false_eq_true, if_false]
          rw [hres] at hfold2
          simp only [hfold2]

/-- Concrete refresh inputs for the witness. -/
def wFiles : List CacheFile :=
  [{ path := "p", mtime := 5, lastRefreshed := some 10 },
   { path := "q", mtime := 7 }]

/-- Concrete supervisor state for the witness. -/
def wSt : CacheState := { cache := none, mtimes := [] }

theorem cache_refresh_correct_witness :
    (wFiles ≠ [] ∧ ((wFiles.map (fun f => f.path)).Nodup))
    ∧ ((∀ (st' : CacheState) (best : Option (Int × List PlaylistEntry))
          (f : CacheFile) (last : Int),
          false = false → st'.cache.isSome = true →
          assocGet st'.mtimes f.path = some last → f.mtime ≤ last →
          refreshStep false st' best f = (st', best))
      ∧ ((wFiles.filter (eligible false wSt)).map candidateOf = [] →
          (refresh_shared_playlist_cache false wSt wFiles).2 = wSt.cache)
      ∧ ((wFiles.filter (eligible false wSt)).map candidateOf ≠ [] →
          ∃ w, w ∈ (wFiles.filter (eligible false wSt)).map candidateOf
            ∧ (∀ x ∈ (wFiles.filter (eligible false wSt)).map candidateOf,
                x.1 ≤ w.1)
            ∧ (refresh_shared_playlist_cache false wSt wFiles).2
                = some { last_refreshed := w.1, playlists := w.2,
                         by_name := (buildIndices w.2).1,
                         by_id := (buildIndices w.2).2 })) :=
  ⟨⟨by decide, by decide⟩,
   cache_refresh_correct false wSt wFiles (by decide) (by decide)⟩

/-! ## IPC command handling (`Supervisor._handle_ipc_command` and the
`_serve` loop)

A request is the decoded JSON object restricted to the two fields the
handler reads: `str(request.get("command", ""))` (already
string-converted; lowering is applied by the handler) and
`request.get("sync_id")` (`none` = absent).  The scheduler is modelled
by the registered job ids with their `next_run_time`; `pause_job` /
`resume_job` / `remove_job` raise `JobLookupError` (an `Except.error`)
when the id is not registered — their scheduler-side mutations are not
needed by the claim and are not modelled.  The `_serve` loop wraps
receive/decode/handle in one `except Exception` that turns any raised
error into a `{status: "error", message}` response. -/

/-- `str.lower()` (ASCII case folding). -/
def strLower (s : String) : String := String.mk (s.data.map Char.toLower)

/-- The fields of an IPC request read by the handler. -/
structure IpcRequest where
  command : String := ""
  sync_id : Option String := none
deriving DecidableEq, Repr

/-- One entry of the `status` response. -/
structure JobSnapshot where
  id : String
  next_run : Option Int
  missed : Bool
  paused : Bool
deriving DecidableEq, Repr

/-- A JSON response: `{status:"ok", jobs:…}`, `{status:"ok", message}`,
or `{status:"error", message}`. -/
inductive IpcResponse where
  | okJobs (jobs : List JobSnapshot)
  | okMsg (message : String)
  | error (message : String)
deriving DecidableEq, Repr

/-- The supervisor fields the handler consults: the job index
(`_sync_index`) and the scheduler's registered jobs with their next run
times. -/
structure SupervisorModel where
  sync_index : List String := []
  jobs : List (String × Option Int) := []
deriving DecidableEq, Repr

/-- `Supervisor._job_snapshot`: `missed = next_run < now` when a next
run exists, `paused = next_run is None`. -/
def job_snapshot (sup : SupervisorModel) (now : Int) : List JobSnapshot :=
  sup.jobs.map (fun j =>
    { id := j.1, next_run := j.2,
      missed := match j.2 with
        | some t => decide (t < now)
        | none => false,
      paused := j.2 = none })

/-- `Supervisor._handle_ipc_command`; an `Except.error` is an exception
escaping the handler (caught by the serve loop). -/
def handle_ipc_command (sup : SupervisorModel) (now : Int)
    (req : IpcRequest) : Except String IpcResponse :=
  let command := strLower req.command
  if command = "status" then .ok (.okJobs (job_snapshot sup now))
  else if command = "pause" ∨ command = "resume" ∨ command = "delete"
      ∨ command = "start" then
    match req.sync_id with
    | none => .ok (.error "Unknown sync: None")
    | some sid =>
        if sid = "" ∨ sid ∉ sup.sync_index then
          .ok (.error ("Unknown sync: " ++ sid))
        else if command = "pause" then
          if sid ∈ sup.jobs.map (fun j => j.1) then
            .ok (.okMsg ("Paused " ++ sid))
          else .error ("No job by the id of " ++ sid ++ " was found")
        else if command = "resume" then
          if sid ∈ sup.jobs.map (fun j => j.1) then
            .ok (.okMsg ("Resumed " ++ sid))
          else .error ("No job by the id of " ++ sid ++ " was found")
        else if command = "delete" then
          if sid ∈ sup.jobs.map (fun j => j.1) then
            .ok (.okMsg ("Removed " ++ sid))
          else .error ("No job by the id of " ++ sid ++ " was found")
        else .ok (.okMsg ("Triggered " ++ sid))
  else .ok (.error ("Unsupported command: " ++ command))

/-- One request/response round of the `_serve` loop body: a decode
failure (malformed JSON, `parsed = .error msg`) or an exception from the
handler becomes an error response; the loop itself never propagates. -/
def ipc_serve_response (sup : SupervisorModel) (now : Int)
    (parsed : Except String IpcRequest) : IpcResponse :=
  match parsed with
  | .error msg => .error msg
  | .ok req =>
      match handle_ipc_command sup now req with
      | .ok resp => resp
      | .error msg => .error msg

/-- C8: the serve loop maps every request to a JSON response: an
unrecognised command yields `{status:"error", message}`; a
pause/resume/delete/start request whose `sync_id` is absent, empty, or
not in the job index yields `{status:"error", message}`; malformed JSON
yields `{status:"error", message}`; and an exception raised while
handling (for instance pausing an id present in the index but no longer
registered with the scheduler) is caught and answered with
`{status:"error", message}` instead of crashing the loop. -/
theorem ipc_always_responds (sup : SupervisorModel) (now : Int) :
    (∀ (req : IpcRequest),
        strLower req.command ∉
          ["status", "pause", "resume", "delete", "start"] →
        ipc_serve_response sup now (.ok req)
          = .error ("Unsupported command: " ++ strLower req.command))
    ∧ (∀ (req : IpcRequest),
        strLower req.command ∈ ["pause", "resume", "delete", "start"] →
        (req.sync_id = none ∨ req.sync_id = some ""
          ∨ ∀ sid, req.sync_id = some sid → sid ∉ sup.sync_index) →
        ∃ msg, ipc_serve_response sup now (.ok req) = .error msg)
    ∧ (∀ msg, ipc_serve_response sup now (.error msg) = .error msg)
    ∧ (∀ (req : IpcRequest) (msg : String),
        handle_ipc_command sup now req = .error msg →
        ipc_serve_response sup now (.ok req) = .error msg) := by
  refine ⟨?_, ?_, fun msg => rfl, ?_⟩
  · intro req hcmd
    have h1 : strLower req.command ≠ "status" := fun h => hcmd (by simp [h])
    have h2 : strLower req.command ≠ "pause" := fun h => hcmd (by simp [h])
    have h3 : strLower req.command ≠ "resume" := fun h => hcmd (by simp [h])
    have h4 : strLower req.command ≠ "delete" := fun h => hcmd (by simp [h])
    have h5 : strLower req.command ≠ "start" := fun h => hcmd (by simp [h])
    simp only [ipc_serve_response, handle_ipc_command]
    rw [if_neg h1, if_neg (by simp [h2, h3, h4, h5])]
  · intro req hcmd hsid
    have h1 : strLower req.command ≠ "status" := by
      intro h
      rw [h] at hcmd
      simp at hcmd
    have h2 : strLower req.command = "pause" ∨ strLower req.command
        = "resume" ∨ strLower req.command = "delete"
        ∨ strLower req.command = "start" := by simpa using hcmd
    rcases hid : req.sync_id with _ | sid
    · simp only [ipc_serve_response, handle_ipc_command, hid]
      rw [if_neg h1, if_pos h2]
      exact ⟨"Unknown sync: None", rfl⟩
    · have hbad : sid = "" ∨ sid ∉ sup.sync_index := by
        rcases hsid with h | h | h
        · rw [hid] at h; cases h
        · rw [hid] at h
          exact Or.inl (by simpa using h)
        · exact Or.inr (h sid hid)
      simp only [ipc_serve_response, handle_ipc_command, hid]
      rw [if_neg h1, if_pos h2, if_pos hbad]
      exact ⟨"Unknown sync: " ++ sid, rfl⟩
  · intro req msg h
    simp only [ipc_serve_response]
    rw [h]

theorem ipc_always_responds_witness :
    (strLower "FLUSH" ∉ ["status", "pause", "resume", "delete", "start"]
      ∧ (strLower "PAUSE" ∈ ["pause", "resume", "delete", "start"])
      ∧ handle_ipc_command { sync_index := ["a"], jobs := [] } 0
          { command := "pause", sync_id := some "a" }
          = Except.error "No job by the id of a was found")
    ∧ (ipc_serve_response { sync_index := ["a"], jobs := [] } 0
        (.ok { command := "FLUSH" })
        = .error ("Unsupported command: " ++ strLower "FLUSH")
      ∧ (∃ msg, ipc_serve_response { sync_index := ["a"], jobs := [] } 0
          (.ok { command := "PAUSE", sync_id := some "b" }) = .error msg)
      ∧ ipc_serve_response { sync_index := ["a"], jobs := [] } 0
          (.error "bad json") = .error "bad json"
      ∧ ipc_serve_response { sync_index := ["a"], jobs := [] } 0
          (.ok { command := "pause", sync_id := some "a" })
          = .error "No job by the id of a was found") :=
  ⟨⟨by decide, by decide, rfl⟩,
   (ipc_always_responds { sync_index := ["a"], jobs := [] } 0).1
     { command := "FLUSH" } (by decide),
   (ipc_always_responds { sync_index := ["a"], jobs := [] } 0).2.1
     { command := "PAUSE", sync_id := some "b" } (by decide)
     (Or.inr (Or.inr (by intro sid h; cases h; decide))),
   (ipc_always_responds { sync_index := ["a"], jobs := [] } 0).2.2.1
     "bad json",
   (ipc_always_responds { sync_index := ["a"], jobs := [] } 0).2.2.2
     { command := "pause", sync_id := some "a" }
     "No job by the id of a was found" rfl⟩

end Spotifreak
